import Mathlib

/-!
# goparsify: parse-error diagnostics (`errors.go`)

A shallow embedding of `errors.go` of the `goparsify` package: the positioned
parse error `Error` with its accessors `Pos` and `Error`, the
`UnparsedInputError`, and `LocateError`, which renders a line-and-caret
diagnostic for an offset into a document.

Conventions of the embedding.

* A Go `string` and a `[]byte` are sequences of bytes: `List Byte`.
* Go `int` values are modelled by `Int`.  The only arithmetic `LocateError`
  performs on them is `lino++`, `off += len(line) + 1` and `pos - prev`, on
  values bounded by the length of the document, so no wrap-around is
  reachable; the stored offset of an `Error` is arbitrary.
* A run-time panic of Go (a slice bound or an index out of range) is a `Fault`;
  functions that can panic return `Except Fault _`.
* `LocateError` reads the document through `bufio.Scanner` over a
  `strings.Reader`, with the default split function `bufio.ScanLines`.  These
  belong to the Go standard library; they are embedded here as the state
  machine of `Scanner.Scan`, including the buffer growth (4096 bytes, doubling
  up to `MaxScanTokenSize`), the shifting of the buffer, and the fact that the
  token returned by `Bytes` is a window of the scanner's buffer, because the
  capacity of that window decides whether `line[:pos-prev]` panics and a later
  call of `Scan` can overwrite it.
-/

set_option linter.dupNamespace false

namespace Goparsify

/-- A byte of a Go string or byte slice. -/
abbrev Byte := UInt8

/-- The bytes (UTF-8) of a string literal of the source. -/
def bytes (s : String) : List Byte := s.data.flatMap String.utf8EncodeChar

/-- Run-time panics of Go that the embedded code can raise.  `fuel` is the
recursion bound of the embedding running out; it is not a behaviour of the
program. -/
inductive Fault where
  | sliceBounds
  | indexRange
  | fuel
  deriving DecidableEq, Repr

/-- Equality of results is decidable, so that a result can be compared with
an expected value by evaluation. -/
instance instDecidableEqExcept {ε α : Type} [DecidableEq ε] [DecidableEq α] :
    DecidableEq (Except ε α)
  | .ok a, .ok b =>
    if h : a = b then isTrue (by rw [h]) else isFalse (fun h1 => h (by cases h1; rfl))
  | .error a, .error b =>
    if h : a = b then isTrue (by rw [h]) else isFalse (fun h1 => h (by cases h1; rfl))
  | .ok _, .error _ => isFalse (fun h1 => by cases h1)
  | .error _, .ok _ => isFalse (fun h1 => by cases h1)

/-! ## `fmt` verbs -/

/-- The decimal digit `d` (for `d < 10`) as an ASCII byte. -/
def digit (d : Nat) : Byte := UInt8.ofNat (48 + d % 10)

/-- Decimal digits of `n`, most significant first, in front of `acc`; `fuel`
bounds the number of digits. -/
def natDigits : Nat → Nat → List Byte → List Byte
  | 0, _, acc => acc
  | fuel + 1, n, acc =>
    if n / 10 = 0 then digit n :: acc
    else natDigits fuel (n / 10) (digit n :: acc)

/-- The verb `%d` applied to an `int`: decimal, with a leading `-` for a negative value. -/
def decimal (n : Int) : List Byte :=
  if n < 0 then 45 :: natDigits (n.natAbs + 1) n.natAbs []
  else natDigits (n.natAbs + 1) n.natAbs []

/-! ## The error values -/

/-- The type `Error`: a parse error at offset `pos`, where `expected` was expected. -/
structure Error where
  pos : Int
  expected : List Byte
  deriving DecidableEq, Repr

/-- The method `Pos`: the offset into the document the error was found. -/
def Error.Pos (e : Goparsify.Error) : Int := e.pos

/-- The method `Error`: `fmt.Sprintf("offset %d: expected %s", e.pos, e.expected)`. -/
def Error.Error (e : Goparsify.Error) : List Byte :=
  bytes "offset " ++ decimal e.pos ++ bytes ": expected " ++ e.expected

/-- The type `UnparsedInputError`: not all of the input was consumed. -/
structure UnparsedInputError where
  Remaining : List Byte
  deriving DecidableEq, Repr

/-- The method `Error` of `UnparsedInputError`: `"left unparsed: " + e.Remaining`. -/
def UnparsedInputError.Error (e : UnparsedInputError) : List Byte :=
  bytes "left unparsed: " ++ e.Remaining

/-! ## `bytes.IndexByte`, `bufio.ScanLines` -/

/-- The function `bytes.IndexByte`: the index of the first `c` in `data`, or
`none` (Go: `-1`) when there is none. -/
def IndexByte : List Byte → Byte → Option Nat
  | [], _ => none
  | b :: rest, c =>
    if b = c then some 0
    else match IndexByte rest c with
      | some i => some (i + 1)
      | none => none

/-- The function `dropCR` of `bufio`: drop a terminal `\r` from the data. -/
def dropCR (data : List Byte) : List Byte :=
  if data.getLast? = some 13 then data.dropLast else data

/-- The split function `bufio.ScanLines`.  The result is the advance and the
token, `none` for a `nil` token; the error it returns is always `nil`.  The
token is a prefix of `data`, so it begins where `data` begins. -/
def ScanLines (data : List Byte) (atEOF : Bool) : Nat × Option (List Byte) :=
  if atEOF && data.isEmpty then (0, none)
  else match IndexByte data 10 with
    | some i => (i + 1, some (dropCR (data.take i)))
    | none => if atEOF then (data.length, some (dropCR data)) else (0, none)

/-! ## `bufio.Scanner` over a `strings.Reader` -/

/-- The errors a `Scanner` over a `strings.Reader` can record in `s.err`. -/
inductive ScanErr where
  | EOF
  | ErrTooLong
  | ErrNoProgress
  | ErrAdvanceTooFar
  deriving DecidableEq, Repr

/-- The constant `bufio.MaxScanTokenSize`. -/
def MaxScanTokenSize : Nat := 64 * 1024

/-- The constant `startBufSize` of `bufio`. -/
def startBufSize : Nat := 4096

/-- The largest `int` (64-bit). -/
def maxInt : Nat := 2 ^ 63 - 1

/-- A byte slice that is a window of one of the scanner's backing arrays:
array number `arr` (in order of allocation), the window `[lo, lo + len)`, and
the capacity `cap`, which reaches to the end of the array. -/
structure Slice where
  arr : Nat
  lo : Nat
  len : Nat
  cap : Nat
  deriving DecidableEq, Repr

/-- The state of a `bufio.Scanner` reading a `strings.Reader`.

* `r` is the unread part of the reader's string;
* `buf` holds the bytes of `s.buf` up to the highest index written so far (the
  rest of the array is still zero and is never read), `bufLen` is `len(s.buf)`;
* `retired` are the backing arrays replaced when the buffer grew, oldest
  first: a token handed out earlier still points into them;
* `start`, `end_`, `err` are the fields `s.start`, `s.end`, `s.err`. -/
structure Scanner where
  r : List Byte
  buf : List Byte
  bufLen : Nat
  retired : List (List Byte)
  start : Nat
  end_ : Nat
  err : Option ScanErr
  deriving Repr

/-- The call `bufio.NewScanner(strings.NewReader(s))`. -/
def NewScanner (s : List Byte) : Scanner :=
  { r := s, buf := [], bufLen := 0, retired := [], start := 0, end_ := 0, err := none }

/-- The method `setErr`: record the first non-EOF error. -/
def Scanner.setErr (s : Scanner) (err : ScanErr) : Scanner :=
  if s.err = none ∨ s.err = some ScanErr.EOF then { s with err := some err } else s

/-- The assignment `copy(buf[i:], src)` on the written prefix of an array, for
`i` within that prefix. -/
def copyAt (buf : List Byte) (i : Nat) (src : List Byte) : List Byte :=
  buf.take i ++ src ++ buf.drop (i + src.length)

/-- The bytes `s.buf[s.start:s.end]`. -/
def Scanner.data (s : Scanner) : List Byte :=
  (s.buf.drop s.start).take (s.end_ - s.start)

/-- The method `advance`: consume `n` bytes of the buffer; `none` when `n`
exceeds what the buffer holds (Go: `ErrAdvanceTooFar`, and `false`). -/
def Scanner.advance (s : Scanner) (n : Nat) : Option Scanner :=
  if n > s.end_ - s.start then none else some { s with start := s.start + n }

/-- What the head of the loop of `Scan` finds. -/
inductive Split where
  /-- `Scan` returns `false` at once. -/
  | stop (s : Scanner)
  /-- `Scan` returns `true` with this token. -/
  | token (t : Slice) (s : Scanner)
  /-- No token with the data at hand. -/
  | more (s : Scanner)

/-- The head of the loop of `Scan`: if there is data, or the input has ended,
ask the split function for a token. -/
def Scanner.trySplit (s : Scanner) : Split :=
  if s.end_ > s.start ∨ s.err ≠ none then
    match ScanLines s.data (s.err != none) with
    | (n, token) =>
      match s.advance n with
      | none => Split.stop (s.setErr ScanErr.ErrAdvanceTooFar)
      | some s1 =>
        match token with
        | some tok =>
          Split.token
            { arr := s.retired.length, lo := s.start, len := tok.length,
              cap := s.bufLen - s.start } s1
        | none => Split.more s1
  else Split.more s

/-- Shift the data to the beginning of the buffer if there is lots of empty
space or space is needed. -/
def Scanner.shift (s : Scanner) : Scanner :=
  if s.start > 0 ∧ (s.end_ = s.bufLen ∨ s.start > s.bufLen / 2) then
    { s with buf := copyAt s.buf 0 s.data, end_ := s.end_ - s.start, start := 0 }
  else s

/-- Resize the buffer if it is full: `none` when it cannot grow
(`ErrTooLong`).  The new array holds the data at its beginning; the old one is
retired. -/
def Scanner.grow (s : Scanner) : Option Scanner :=
  if s.end_ = s.bufLen then
    if s.bufLen ≥ MaxScanTokenSize ∨ s.bufLen > maxInt / 2 then none
    else
      let newSize := if s.bufLen * 2 = 0 then startBufSize else s.bufLen * 2
      some { s with buf := s.data, bufLen := min newSize MaxScanTokenSize,
                    retired := s.retired ++ [s.buf],
                    end_ := s.end_ - s.start, start := 0 }
  else some s

/-- The read loop of `Scan` on a `strings.Reader`: `Read` fills
`s.buf[s.end:]` with as much of the rest of the string as fits, or returns
`io.EOF` when nothing is left.  (With no room and input left every read would
return zero bytes, ending in `ErrNoProgress`; `grow` leaves room.) -/
def Scanner.read (s : Scanner) : Scanner :=
  match s.r with
  | [] => s.setErr ScanErr.EOF
  | _ :: _ =>
    if s.bufLen - s.end_ = 0 then s.setErr ScanErr.ErrNoProgress
    else
      { s with buf := copyAt s.buf s.end_ (s.r.take (s.bufLen - s.end_)),
               end_ := s.end_ + (s.r.take (s.bufLen - s.end_)).length,
               r := s.r.drop (s.bufLen - s.end_) }

/-- The method `Scan`, with `ScanLines` as split function.  The result is
`none` when `Scan` returns `false` and the token (`s.Bytes()`) when it returns
`true`, together with the scanner afterwards.  Each turn of the loop of `Scan`
that does not return reads from the reader or records its end, so `fuel`
greater than the length of `s.r` plus one is never used up.

The counter `s.empties` is left out: `ScanLines` never returns a token with a
zero advance.  So is `s.done`, which only a split function returning
`ErrFinalToken` sets. -/
def Scanner.Scan : Nat → Scanner → Except Fault (Option Slice × Scanner)
  | 0, _ => .error Fault.fuel
  | fuel + 1, s =>
    match s.trySplit with
    | Split.stop s1 => .ok (none, s1)
    | Split.token t s1 => .ok (some t, s1)
    | Split.more s1 =>
      -- we cannot generate a token with what we are holding
      if s1.err ≠ none then .ok (none, { s1 with start := 0, end_ := 0 })
      else
        match s1.shift.grow with
        | none => .ok (none, s1.shift.setErr ScanErr.ErrTooLong)
        | some s2 => Scanner.Scan fuel s2.read

/-- The bytes a slice shows, given the scanner that owns its array. -/
def Scanner.view (s : Scanner) (x : Slice) : List Byte :=
  (((s.retired ++ [s.buf]).getD x.arr []).drop x.lo).take x.len

/-! ## Slice operations of `LocateError` -/

/-- The expression `len(x[:n])` for a slice of capacity `cap`: the bound `n`
may exceed the length but not the capacity. -/
def lenSliceTo (cap : Nat) (n : Int) : Except Fault Nat :=
  if 0 ≤ n ∧ n ≤ (cap : Int) then .ok n.toNat else .error Fault.sliceBounds

/-- The expression `x[n:]`. -/
def sliceFrom (x : List Byte) (n : Int) : Except Fault (List Byte) :=
  if 0 ≤ n ∧ n ≤ (x.length : Int) then .ok (x.drop n.toNat) else .error Fault.sliceBounds

/-- The assignment `x[i] = b`. -/
def setByte (x : List Byte) (i : Nat) (b : Byte) : Except Fault (List Byte) :=
  if i < x.length then .ok (x.set i b) else .error Fault.indexRange

/-- The indent: `make([]byte, n)`, a slice of `n` zero bytes, followed by
`for i, c := range indent { if c != '\t' { indent[i] = ' ' } }`, where `c` is
the byte of `indent` at `i`. -/
def makeIndent (n : Nat) : List Byte :=
  (List.replicate n (0 : Byte)).map (fun c => if c ≠ 9 then 32 else c)

/-- The block `if off > 40 { ... }`: cut `indent` and `line` at `off - 30` and
write `...` over the first three bytes of `line`. -/
def rightMargin (line indent : List Byte) (off : Int) :
    Except Fault (List Byte × List Byte) :=
  if off > 40 then do
    let indent ← sliceFrom indent (off - 30)
    let line ← sliceFrom line (off - 30)
    let line ← setByte line 0 46
    let line ← setByte line 1 46
    let line ← setByte line 2 46
    pure (line, indent)
  else pure (line, indent)

/-- The block `if len(line) > 70 { ... }`: keep the first 70 bytes (`line[:70]`
is within the length, so it cannot panic) and write `...` over the last three. -/
def longLine (line : List Byte) : Except Fault (List Byte) :=
  if line.length > 70 then do
    let line := line.take 70
    let line ← setByte line 69 46
    let line ← setByte line 68 46
    let line ← setByte line 67 46
    pure line
  else pure line

/-! ## `LocateError` -/

/-- The variables `lino`, `prev`, `off` and `line` of `LocateError`. -/
structure Vars where
  lino : Int
  prev : Int
  off : Int
  line : Slice
  deriving DecidableEq, Repr

/-- The variables as declared: zero, and a `nil` slice. -/
def Vars.init : Vars :=
  { lino := 0, prev := 0, off := 0, line := { arr := 0, lo := 0, len := 0, cap := 0 } }

/-- The loop `for byline.Scan() { ... }`.  Every successful `Scan` consumes at
least one byte of the document, so `fuel` greater than its length is never used up. -/
def scanLoop (pos : Int) : Nat → Scanner → Vars → Except Fault (Vars × Scanner)
  | 0, _, _ => .error Fault.fuel
  | fuel + 1, byline, v =>
    match byline.Scan (byline.r.length + 2) with
    | .error f => .error f
    | .ok (none, byline1) => .ok (v, byline1)
    | .ok (some token, byline1) =>
      let v1 : Vars :=
        { lino := v.lino + 1, line := token, prev := v.off, off := v.off + token.len + 1 }
      if v1.prev ≤ pos ∧ pos ≤ v1.off then .ok (v1, byline1)
      else scanLoop pos fuel byline1 v1

/-- What the final `Sprintf` of `LocateError` prints besides the message: the
line number, the rendered line and the indent of the caret. -/
structure Diagnostic where
  lino : Int
  line : List Byte
  indent : List Byte
  deriving DecidableEq, Repr

/-- The state in which the scan loop of `LocateError` ends. -/
def Error.scan (e : Goparsify.Error) (s : List Byte) : Except Fault (Vars × Scanner) :=
  scanLoop e.Pos (s.length + 1) (NewScanner s) Vars.init

/-- The body of `LocateError` after the guard, up to the final `Sprintf`. -/
def Error.locate (e : Goparsify.Error) (s : List Byte) : Except Fault Diagnostic := do
  let pos := e.Pos
  let (v, byline) ← e.scan s
  let line := byline.view v.line
  let n ← lenSliceTo v.line.cap (pos - v.prev)
  let indent := makeIndent n
  let off := pos - v.prev
  let (line, indent) ← rightMargin line indent off
  let line ← longLine line
  pure { lino := v.lino, line := line, indent := indent }

/-- The final `fmt.Sprintf("Parsing error in line %d:\n%s\n%s^\n%v\n", ...)`. -/
def Diagnostic.format (d : Diagnostic) (msg : List Byte) : List Byte :=
  bytes "Parsing error in line " ++ decimal d.lino ++ bytes ":\n" ++ d.line ++ bytes "\n"
    ++ d.indent ++ bytes "^\n" ++ msg ++ bytes "\n"

/-- The method `LocateError`: the error description along with a cursor to
the input; `.error` when the Go code panics. -/
def Error.LocateError (e : Goparsify.Error) (s : List Byte) : Except Fault (List Byte) :=
  if (s.length : Int) < e.Pos then .ok e.Error
  else do
    let d ← e.locate s
    pure (d.format e.Error)

/-- The loop `for byline.Scan() { ... }` once more, recording in addition how it
ended: `true` when it left through its `break`, `false` when `Scan` returned
`false`. -/
def scanLoopBreak (pos : Int) : Nat → Scanner → Vars → Except Fault (Vars × Scanner × Bool)
  | 0, _, _ => .error Fault.fuel
  | fuel + 1, byline, v =>
    match byline.Scan (byline.r.length + 2) with
    | .error f => .error f
    | .ok (none, byline1) => .ok (v, byline1, false)
    | .ok (some token, byline1) =>
      let v1 : Vars :=
        { lino := v.lino + 1, line := token, prev := v.off, off := v.off + token.len + 1 }
      if v1.prev ≤ pos ∧ pos ≤ v1.off then .ok (v1, byline1, true)
      else scanLoopBreak pos fuel byline1 v1

/-! ## Measures for the recursion bounds -/

/-- The bytes of the document not yet handed out as tokens: those in the
buffer and those still in the reader. -/
def Scanner.pending (s : Scanner) : Nat := (s.end_ - s.start) + s.r.length

/-- The measure that bounds the turns of the loop of `Scan`. -/
def Scanner.turns (s : Scanner) : Nat := s.r.length + (if s.err = none then 1 else 0)

/-! ## Well-formed scanner states -/

/-- The state of a scanner is well formed, with `rest` the part of the
document not yet handed out as tokens: the indices are ordered and within the
written part of the buffer, the buffer is within the token limit, the data in
the buffer followed by the unread input is `rest`, and the only error recorded
is the end of the input. -/
structure Scanner.WF (s : Scanner) (rest : List Byte) : Prop where
  start_le : s.start ≤ s.end_
  end_le : s.end_ ≤ s.buf.length
  buf_le : s.buf.length ≤ s.bufLen
  len_le : s.bufLen ≤ MaxScanTokenSize
  rest_eq : s.data ++ s.r = rest
  err_ok : s.err = none ∨ (s.err = some ScanErr.EOF ∧ s.r = [])

/-! ## The truncation steps -/

theorem bytes_dots : bytes "..." = [46, 46, 46] := by decide

theorem makeIndent_eq (n : Nat) : makeIndent n = List.replicate n 32 := by
  simp [makeIndent, List.map_replicate]

theorem set_dots_head (l : List Byte) (h : 3 ≤ l.length) :
    ((l.set 0 46).set 1 46).set 2 46 = 46 :: 46 :: 46 :: l.drop 3 := by
  match l, h with
  | a :: b :: c :: rest, _ => rfl

theorem set_dots_tail (l : List Byte) (h : 70 < l.length) :
    (((l.take 70).set 69 46).set 68 46).set 67 46 = l.take 67 ++ [46, 46, 46] := by
  have h1 : l.take 70 = l.take 67 ++ (l.drop 67).take 3 := by
    have h0 := List.take_append_drop 67 (l.take 70)
    rw [List.take_take, List.drop_take] at h0
    exact h0.symm
  have h2 : 3 ≤ (l.drop 67).length := by rw [List.length_drop]; omega
  have h67 : (l.take 67).length = 67 := by rw [List.length_take]; omega
  rw [h1]
  match hd : l.drop 67, h2 with
  | a :: b :: c :: rest, _ =>
    simp [List.set_append, h67]

theorem longLine_eq (l : List Byte) :
    longLine l = .ok (if 70 < l.length then l.take 67 ++ [46, 46, 46] else l) := by
  unfold longLine
  by_cases h : 70 < l.length
  · have h70 : (l.take 70).length = 70 := by rw [List.length_take]; omega
    simp [h, setByte, h70, bind, Except.bind, pure, Except.pure, set_dots_tail l h]
  · simp [h, pure, Except.pure]

theorem rightMargin_le (line indent : List Byte) (off : Int) (h : ¬ 40 < off) :
    rightMargin line indent off = .ok (line, indent) := by
  simp [rightMargin, h, pure, Except.pure]

theorem rightMargin_eq (line indent : List Byte) (c : Nat) (h : 40 < c)
    (hi : indent.length = c) :
    rightMargin line indent (c : Int) =
      if c ≤ line.length + 27 then
        .ok (46 :: 46 :: 46 :: line.drop (c - 27), indent.drop (c - 30))
      else if c ≤ line.length + 30 then .error Fault.indexRange
      else .error Fault.sliceBounds := by
  have hc : (40 : Int) < (c : Int) := by exact_mod_cast h
  have ht : ((c : Int) - 30).toNat = c - 30 := by omega
  have h0 : (0 : Int) ≤ (c : Int) - 30 := by omega
  have h1 : (c : Int) - 30 ≤ (indent.length : Int) := by omega
  unfold rightMargin
  simp only [gt_iff_lt, hc, if_true, sliceFrom, h0, h1, and_self, ht, bind, Except.bind, true_and]
  by_cases h2 : c ≤ line.length + 30
  · have h3 : (c : Int) - 30 ≤ (line.length : Int) := by omega
    simp only [h3, if_true]
    have hd : (line.drop (c - 30)).drop 3 = line.drop (c - 27) := by
      rw [List.drop_drop]; congr 1; omega
    have hl : (line.drop (c - 30)).length = line.length + 30 - c := by
      rw [List.length_drop]; omega
    rw [← hd]
    generalize line.drop (c - 30) = l at hl
    match l, hl with
    | [], hl =>
      have h4 : ¬ c ≤ line.length + 27 := by simp at hl; omega
      simp [setByte, h4, h2]
    | [_], hl =>
      have h4 : ¬ c ≤ line.length + 27 := by simp at hl; omega
      simp [setByte, h4, h2]
    | [_, _], hl =>
      have h4 : ¬ c ≤ line.length + 27 := by simp at hl; omega
      simp [setByte, h4, h2]
    | _ :: _ :: _ :: rest, hl =>
      have h4 : c ≤ line.length + 27 := by simp at hl; omega
      simp [setByte, h4, pure, Except.pure]
  · have h3 : ¬ (c : Int) - 30 ≤ (line.length : Int) := by omega
    have h4 : ¬ c ≤ line.length + 27 := by omega
    simp [h3, h4, h2]

/-! ## The scan loop ends -/

theorem ScanLines_token_advance (data : List Byte) (atEOF : Bool) (n : Nat) (tok : List Byte)
    (h : ScanLines data atEOF = (n, some tok)) : 1 ≤ n := by
  unfold ScanLines at h
  split at h
  · simp at h
  · split at h
    · simp at h; omega
    · split at h
      · rename_i h1 _ _ h2
        simp at h
        have : data ≠ [] := by
          intro h3; subst h3; simp [h2] at h1
        have := List.length_pos.mpr this
        omega
      · simp at h

theorem ScanLines_none_advance (data : List Byte) (atEOF : Bool) (n : Nat)
    (h : ScanLines data atEOF = (n, none)) : n = 0 := by
  unfold ScanLines at h
  split at h
  · simp at h; omega
  · split at h
    · simp at h
    · split at h
      · simp at h
      · simp at h; omega

theorem setErr_r (s : Scanner) (e : ScanErr) : (s.setErr e).r = s.r := by
  unfold Scanner.setErr; split <;> rfl

theorem setErr_pending (s : Scanner) (e : ScanErr) : (s.setErr e).pending = s.pending := by
  unfold Scanner.setErr; split <;> rfl

theorem setErr_err (s : Scanner) (e : ScanErr) : (s.setErr e).err ≠ none := by
  unfold Scanner.setErr
  split
  · simp
  · rename_i h; simp at h; exact h.1

theorem advance_some (s s0 : Scanner) (n : Nat) (h : s.advance n = some s0) :
    n ≤ s.end_ - s.start ∧ s0 = { s with start := s.start + n } := by
  unfold Scanner.advance at h
  split at h
  · simp at h
  · simp at h; exact ⟨by omega, h.symm⟩

theorem trySplit_more (s s1 : Scanner) (h : s.trySplit = Split.more s1) : s1 = s := by
  unfold Scanner.trySplit at h
  split at h
  · split at h
    rename_i n token hsl
    split at h
    · simp at h
    · rename_i s0 h0
      obtain ⟨_, h1⟩ := advance_some _ _ _ h0
      split at h
      · simp at h
      · have hn := ScanLines_none_advance _ _ _ hsl
        simp at h
        rw [← h, h1, hn]
        cases s
        rfl
  · simp at h; exact h.symm

theorem trySplit_token (s s1 : Scanner) (t : Slice) (h : s.trySplit = Split.token t s1) :
    s1.pending < s.pending := by
  unfold Scanner.trySplit at h
  split at h
  · split at h
    rename_i n token hsl
    split at h
    · simp at h
    · rename_i s0 h0
      obtain ⟨hle, h1⟩ := advance_some _ _ _ h0
      split at h
      · have hn := ScanLines_token_advance _ _ _ _ hsl
        simp at h
        rw [← h.2, h1]
        simp only [Scanner.pending]
        omega
      · simp at h
  · simp at h

theorem shift_r (s : Scanner) : s.shift.r = s.r := by
  unfold Scanner.shift; split <;> rfl

theorem shift_err (s : Scanner) : s.shift.err = s.err := by
  unfold Scanner.shift; split <;> rfl

theorem shift_pending (s : Scanner) : s.shift.pending = s.pending := by
  unfold Scanner.shift Scanner.pending; split <;> simp

theorem grow_some (s s2 : Scanner) (h : s.grow = some s2) :
    s2.r = s.r ∧ s2.err = s.err ∧ s2.pending = s.pending := by
  unfold Scanner.grow at h
  split at h
  · split at h
    · simp at h
    · simp at h; subst h; simp [Scanner.pending]
  · simp at h; subst h; simp

theorem read_pending (s : Scanner) : s.read.pending ≤ s.pending := by
  unfold Scanner.read
  split
  · exact le_of_eq (setErr_pending _ _)
  · split
    · exact le_of_eq (setErr_pending _ _)
    · rename_i a l hr hroom
      simp only [Scanner.pending, hr, List.length_take, List.length_drop, List.length_cons]
      omega

theorem read_turns (s : Scanner) (h : s.err = none) : s.read.turns < s.turns := by
  unfold Scanner.read
  split
  · rename_i hr
    have := setErr_err s ScanErr.EOF
    simp [Scanner.turns, setErr_r, h, this, hr]
  · split
    · have := setErr_err s ScanErr.ErrNoProgress
      simp [Scanner.turns, setErr_r, h, this]
    · rename_i a l hr hroom
      simp only [Scanner.turns, hr, h, List.length_drop, List.length_cons]
      simp
      omega

theorem Scan_ok (fuel : Nat) (s : Scanner) (h : s.turns < fuel) :
    ∃ res, s.Scan fuel = .ok res := by
  induction fuel generalizing s with
  | zero => omega
  | succ fuel ih =>
    unfold Scanner.Scan
    split
    · exact ⟨_, rfl⟩
    · exact ⟨_, rfl⟩
    · rename_i s1 hs
      have h1 := trySplit_more s s1 hs
      subst h1
      split
      · exact ⟨_, rfl⟩
      · rename_i herr
        simp at herr
        split
        · exact ⟨_, rfl⟩
        · rename_i s2 hg
          obtain ⟨hr, he, _⟩ := grow_some _ _ hg
          apply ih
          have h2 : s2.turns = s1.turns := by
            simp [Scanner.turns, hr, he, shift_r, shift_err]
          have h3 := read_turns s2 (by rw [he, shift_err]; exact herr)
          omega

theorem Scan_pending (fuel : Nat) (s s1 : Scanner) (t : Slice)
    (h : s.Scan fuel = .ok (some t, s1)) : s1.pending < s.pending := by
  induction fuel generalizing s with
  | zero => simp [Scanner.Scan] at h
  | succ fuel ih =>
    unfold Scanner.Scan at h
    split at h
    · simp at h
    · rename_i t1 s2 hs
      simp at h
      rw [← h.2]
      exact trySplit_token _ _ _ hs
    · rename_i s2 hs
      have h1 := trySplit_more s s2 hs
      subst h1
      split at h
      · simp at h
      · split at h
        · simp at h
        · rename_i s3 hg
          obtain ⟨_, _, hp⟩ := grow_some _ _ hg
          have h1 := ih _ h
          have h2 := read_pending s3
          rw [hp, shift_pending] at h2
          omega

theorem scanLoop_ok (pos : Int) (fuel : Nat) (byline : Scanner) (v : Vars)
    (h : byline.pending < fuel) : ∃ res, scanLoop pos fuel byline v = .ok res := by
  induction fuel generalizing byline v with
  | zero => omega
  | succ fuel ih =>
    unfold scanLoop
    obtain ⟨res, hres⟩ := Scan_ok (byline.r.length + 2) byline (by
      unfold Scanner.turns; split <;> omega)
    rw [hres]
    match res with
    | (none, b1) => exact ⟨_, rfl⟩
    | (some token, b1) =>
      simp only
      split
      · exact ⟨_, rfl⟩
      · apply ih
        have := Scan_pending _ _ _ _ hres
        omega

/-- The scan loop of `LocateError` always ends, within the recursion bound of
the embedding. -/
theorem scan_ok (e : Goparsify.Error) (s : List Byte) :
    ∃ v byline, e.scan s = .ok (v, byline) := by
  obtain ⟨⟨v, byline⟩, h⟩ := scanLoop_ok e.Pos (s.length + 1) (NewScanner s) Vars.init (by
    simp [Scanner.pending, NewScanner])
  exact ⟨v, byline, h⟩

/-! ## What one call of `Scan` returns -/

theorem NewScanner_WF (s : List Byte) : (NewScanner s).WF s := by
  constructor <;> simp [NewScanner, Scanner.data, MaxScanTokenSize]

theorem Scanner.WF.data_length {s : Scanner} {rest : List Byte} (h : s.WF rest) :
    s.data.length = s.end_ - s.start := by
  have h1 := h.start_le
  have h2 := h.end_le
  simp only [Scanner.data, List.length_take, List.length_drop]
  omega

theorem IndexByte_none (l : List Byte) (c : Byte) : IndexByte l c = none ↔ c ∉ l := by
  induction l with
  | nil => simp [IndexByte]
  | cons b rest ih =>
    unfold IndexByte
    by_cases hb : b = c
    · simp [hb]
    · simp only [hb, if_false]
      cases hi : IndexByte rest c with
      | none =>
        have := ih.mp hi
        simp [this, Ne.symm hb]
      | some i =>
        have : ¬ (c ∉ rest) := fun h => by rw [ih.mpr h] at hi; cases hi
        simp only [not_not] at this
        simp [this]

theorem IndexByte_append (l t : List Byte) (c : Byte) (h : c ∉ l) :
    IndexByte (l ++ c :: t) c = some l.length := by
  induction l with
  | nil => simp [IndexByte]
  | cons b rest ih =>
    have hb : b ≠ c := fun hbc => h (by simp [hbc])
    have hr : c ∉ rest := fun hc => h (by simp [hc])
    simp [IndexByte, hb, ih hr]

theorem shift_WF (s : Scanner) (rest : List Byte) (h : s.WF rest) :
    s.shift.WF rest ∧ s.shift.data = s.data := by
  have hd := h.data_length
  have h1 := h.start_le
  have h2 := h.end_le
  by_cases hc : s.start > 0 ∧ (s.end_ = s.bufLen ∨ s.start > s.bufLen / 2)
  · have hs : s.shift = Scanner.mk s.r (copyAt s.buf 0 s.data) s.bufLen s.retired 0
        (s.end_ - s.start) s.err := by
      simp [Scanner.shift, hc]
    have hdata : s.shift.data = s.data := by
      rw [hs]
      simp only [Scanner.data, copyAt, List.take_zero, List.nil_append, List.drop_zero,
        Nat.sub_zero, Nat.zero_add]
      rw [List.take_append_of_le_length (by rw [← Scanner.data, hd])]
      rw [← Scanner.data, ← hd, List.take_length]
    refine ⟨⟨?_, ?_, ?_, ?_, ?_, ?_⟩, hdata⟩
    · rw [hs]; simp
    · rw [hs]
      simp only [copyAt, List.take_zero, List.nil_append, Nat.zero_add, List.length_append,
        List.length_drop, hd]
      omega
    · have := h.buf_le
      rw [hs]
      simp only [copyAt, List.take_zero, List.nil_append, Nat.zero_add, List.length_append,
        List.length_drop, hd]
      omega
    · rw [hs]; exact h.len_le
    · rw [hdata, shift_r]; exact h.rest_eq
    · rw [shift_err, shift_r]; exact h.err_ok
  · have hs : s.shift = s := by simp [Scanner.shift, hc]
    rw [hs]
    exact ⟨h, rfl⟩

theorem shift_start (s : Scanner) (h : s.shift.end_ = s.shift.bufLen) :
    s.shift.start = 0 := by
  unfold Scanner.shift at h ⊢
  split
  · rfl
  · rename_i hc
    split at h
    · rename_i hc2; exact absurd hc2 hc
    · simp only [not_and, not_or] at hc
      by_contra h0
      exact (hc (by omega)).1 h

theorem grow_WF (s s2 : Scanner) (rest : List Byte) (h : s.WF rest) (hg : s.grow = some s2) :
    s2.WF rest ∧ s2.data = s.data ∧ s2.end_ < s2.bufLen := by
  have hd := h.data_length
  have h1 := h.start_le
  have h2 := h.end_le
  have h3 := h.buf_le
  have h4 := h.len_le
  unfold Scanner.grow at hg
  by_cases hc : s.end_ = s.bufLen
  · simp only [hc, if_true] at hg
    by_cases hm : s.bufLen ≥ MaxScanTokenSize ∨ s.bufLen > maxInt / 2
    · simp [hm] at hg
    · simp only [hm, if_false, Option.some.injEq] at hg
      have hm1 : s.bufLen < MaxScanTokenSize := by omega
      have hdata : s2.data = s.data := by
        rw [← hg]
        simp only [Scanner.data, List.drop_zero, Nat.sub_zero]
        rw [← hc, ← Scanner.data, ← hd, List.take_length]
      have hnew : s.bufLen < min (if s.bufLen * 2 = 0 then startBufSize else s.bufLen * 2)
          MaxScanTokenSize := by
        simp only [startBufSize, MaxScanTokenSize] at hm1 ⊢
        split <;> omega
      refine ⟨⟨?_, ?_, ?_, ?_, ?_, ?_⟩, hdata, ?_⟩
      · rw [← hg]; simp
      · rw [← hg]; simp only [hd]; omega
      · rw [← hg]; simp only [hd]; omega
      · rw [← hg]; simp only; omega
      · rw [hdata, ← hg]; exact h.rest_eq
      · rw [← hg]; exact h.err_ok
      · rw [← hg]; simp only; omega
  · simp only [hc, if_false, Option.some.injEq] at hg
    subst hg
    exact ⟨h, rfl, by omega⟩

theorem grow_none (s : Scanner) (rest : List Byte) (h : s.WF rest) (hg : s.grow = none) :
    s.end_ = s.bufLen ∧ s.bufLen = MaxScanTokenSize := by
  have h4 := h.len_le
  unfold Scanner.grow at hg
  split at hg
  · rename_i hc
    split at hg
    · rename_i hm
      refine ⟨hc, ?_⟩
      rcases hm with hm | hm
      · omega
      · simp only [maxInt, MaxScanTokenSize] at hm h4 ⊢; omega
    · simp at hg
  · simp at hg

theorem read_WF (s : Scanner) (rest : List Byte) (h : s.WF rest) (he : s.err = none)
    (hroom : s.end_ < s.bufLen) (hr : s.r ≠ []) :
    s.read.WF rest ∧ s.read.data = s.data ++ s.r.take (s.bufLen - s.end_) ∧
    s.read.r = s.r.drop (s.bufLen - s.end_) ∧ s.read.err = none ∧
    s.read.start = s.start ∧ s.read.bufLen = s.bufLen ∧ s.read.retired = s.retired := by
  have hd := h.data_length
  have h1 := h.start_le
  have h2 := h.end_le
  have h3 := h.buf_le
  have h4 := h.len_le
  have hroom1 : ¬ s.bufLen - s.end_ = 0 := by omega
  have hs : s.read = Scanner.mk (s.r.drop (s.bufLen - s.end_))
      (copyAt s.buf s.end_ (s.r.take (s.bufLen - s.end_))) s.bufLen s.retired s.start
      (s.end_ + (s.r.take (s.bufLen - s.end_)).length) s.err := by
    unfold Scanner.read
    split
    · rename_i h0; exact absurd h0 hr
    · simp [hroom1]
  have hdata : s.read.data = s.data ++ s.r.take (s.bufLen - s.end_) := by
    rw [hs]
    simp only [Scanner.data, copyAt]
    generalize s.r.take (s.bufLen - s.end_) = chunk
    have e1 : (s.buf.take s.end_ ++ chunk ++ s.buf.drop (s.end_ + chunk.length)).drop s.start
        = (s.buf.take s.end_).drop s.start ++ (chunk ++ s.buf.drop (s.end_ + chunk.length)) := by
      rw [List.append_assoc, List.drop_append_of_le_length (by rw [List.length_take]; omega)]
    rw [e1, List.drop_take]
    have e2 : ((s.buf.drop s.start).take (s.end_ - s.start)).length = s.end_ - s.start := by
      rw [List.length_take, List.length_drop]; omega
    rw [← List.append_assoc, List.take_append_eq_append_take, List.length_append, e2]
    have e3 : s.end_ + chunk.length - s.start - (s.end_ - s.start + chunk.length) = 0 := by
      omega
    rw [e3, List.take_zero, List.append_nil]
    apply List.take_of_length_le
    rw [List.length_append, e2]
    omega
  refine ⟨⟨?_, ?_, ?_, ?_, ?_, ?_⟩, hdata, ?_, ?_, ?_, ?_, ?_⟩
  · rw [hs]; simp only; omega
  · rw [hs]
    simp only [copyAt, List.length_append, List.length_take, List.length_drop]
    omega
  · rw [hs]
    simp only [copyAt, List.length_append, List.length_take, List.length_drop]
    omega
  · rw [hs]; exact h4
  · rw [hdata]
    rw [hs]
    simp only
    rw [List.append_assoc, List.take_append_drop]
    exact h.rest_eq
  · rw [hs]; simp only; exact Or.inl he
  · rw [hs]
  · rw [hs]; exact he
  · rw [hs]
  · rw [hs]
  · rw [hs]

theorem dropCR_eq_take (l : List Byte) : dropCR l = l.take (dropCR l).length := by
  unfold dropCR
  split
  · rw [List.dropLast_eq_take, List.length_take]
    congr 1
    omega
  · simp

theorem dropCR_length_le (l : List Byte) : (dropCR l).length ≤ l.length := by
  unfold dropCR
  split
  · simp
  · exact le_refl _

theorem ScanLines_no_newline (data : List Byte) (h : (10 : Byte) ∉ data) :
    ScanLines data false = (0, none) := by
  simp [ScanLines, (IndexByte_none data 10).mpr h]

theorem ScanLines_newline (l d : List Byte) (atEOF : Bool) (h : (10 : Byte) ∉ l) :
    ScanLines (l ++ 10 :: d) atEOF = (l.length + 1, some (dropCR l)) := by
  simp [ScanLines, IndexByte_append l d 10 h]

theorem ScanLines_last (l : List Byte) (h : (10 : Byte) ∉ l) (hne : l ≠ []) :
    ScanLines l true = (l.length, some (dropCR l)) := by
  simp [ScanLines, (IndexByte_none l 10).mpr h, hne]

theorem split_at_newline (a b l t : List Byte) (h : a ++ b = l ++ 10 :: t)
    (hl : (10 : Byte) ∉ l) :
    ((10 : Byte) ∈ a → ∃ d, a = l ++ 10 :: d ∧ d ++ b = t) ∧
    ((10 : Byte) ∉ a → ∃ m, l = a ++ m ∧ b = m ++ 10 :: t) := by
  rcases List.append_eq_append_iff.mp h with ⟨a', h1, h2⟩ | ⟨c', h1, h2⟩
  · constructor
    · intro ha
      exact absurd (by rw [h1]; exact List.mem_append_left _ ha) hl
    · intro _
      exact ⟨a', h1, h2⟩
  · cases c' with
    | nil =>
      simp only [List.append_nil, List.nil_append] at h1 h2
      constructor
      · intro ha; rw [h1] at ha; exact absurd ha hl
      · intro _; exact ⟨[], by simp [h1], by simp [h2]⟩
    | cons x c'' =>
      simp only [List.cons_append, List.cons.injEq] at h2
      constructor
      · intro _
        exact ⟨c'', by rw [h1, ← h2.1], h2.2.symm⟩
      · intro ha
        exact absurd (by rw [h1, ← h2.1]; simp) ha

theorem trySplit_wait (s : Scanner) (h : (10 : Byte) ∉ s.data) (he : s.err = none) :
    s.trySplit = Split.more s := by
  have h3 : (s.err != none) = false := by simp [he]
  unfold Scanner.trySplit
  split
  · simp only [h3, ScanLines_no_newline _ h, Scanner.advance]
    simp only [gt_iff_lt, not_lt_zero', if_false, Nat.add_zero]
  · rfl

theorem trySplit_newline (s : Scanner) (rest l d : List Byte) (h : s.WF rest)
    (hd : s.data = l ++ 10 :: d) (hl : (10 : Byte) ∉ l) :
    s.trySplit = Split.token
      { arr := s.retired.length, lo := s.start, len := (dropCR l).length,
        cap := s.bufLen - s.start }
      (Scanner.mk s.r s.buf s.bufLen s.retired (s.start + (l.length + 1)) s.end_ s.err) := by
  have hlen := h.data_length
  rw [hd] at hlen
  simp only [List.length_append, List.length_cons] at hlen
  have h1 : s.end_ > s.start ∨ s.err ≠ none := Or.inl (by omega)
  have h2 : ¬ l.length + 1 > s.end_ - s.start := by omega
  unfold Scanner.trySplit
  simp only [h1, if_true, hd, ScanLines_newline l d _ hl, Scanner.advance, h2, if_false]

theorem trySplit_last (s : Scanner) (rest : List Byte) (h : s.WF rest)
    (he : s.err = some ScanErr.EOF) (hl : (10 : Byte) ∉ s.data) (hne : s.data ≠ []) :
    s.trySplit = Split.token
      { arr := s.retired.length, lo := s.start, len := (dropCR s.data).length,
        cap := s.bufLen - s.start }
      (Scanner.mk s.r s.buf s.bufLen s.retired (s.start + s.data.length) s.end_ s.err) := by
  have hlen := h.data_length
  have h1 : s.end_ > s.start ∨ s.err ≠ none := Or.inr (by simp [he])
  have h2 : ¬ s.data.length > s.end_ - s.start := by omega
  have h3 : (s.err != none) = true := by simp [he]
  unfold Scanner.trySplit
  simp only [h1, if_true, h3, ScanLines_last _ hl hne, Scanner.advance, h2, if_false]

theorem trySplit_end (s : Scanner) (he : s.err = some ScanErr.EOF) (hd : s.data = []) :
    s.trySplit = Split.more s := by
  have h1 : s.end_ > s.start ∨ s.err ≠ none := Or.inr (by simp [he])
  have h3 : (s.err != none) = true := by simp [he]
  unfold Scanner.trySplit
  simp only [h1, if_true, h3, hd, ScanLines, List.isEmpty_nil, Bool.and_self, Scanner.advance]
  simp only [gt_iff_lt, not_lt_zero', if_false, Nat.add_zero]

theorem data_advance (s : Scanner) (n : Nat) :
    (Scanner.mk s.r s.buf s.bufLen s.retired (s.start + n) s.end_ s.err).data
      = s.data.drop n := by
  simp only [Scanner.data, List.drop_take, List.drop_drop]
  congr 1
  omega

theorem view_current (s : Scanner) (k cap n : Nat) (hk : k ≤ s.end_ - s.start) :
    (Scanner.mk s.r s.buf s.bufLen s.retired n s.end_ s.err).view
        { arr := s.retired.length, lo := s.start, len := k, cap := cap }
      = s.data.take k := by
  simp only [Scanner.view, Scanner.data, List.take_take, min_eq_left hk]
  congr 2
  simp [List.getD_eq_getElem?_getD]

theorem grow_turns (s s2 : Scanner) (hg : s.shift.grow = some s2) : s2.turns = s.turns := by
  obtain ⟨hr, he, _⟩ := grow_some _ _ hg
  simp [Scanner.turns, hr, he, shift_r, shift_err]

theorem Scan_step (fuel : Nat) (s : Scanner) (h : s.trySplit = Split.more s)
    (he : s.err = none) :
    s.Scan (fuel + 1) =
      match s.shift.grow with
      | none => .ok (none, s.shift.setErr ScanErr.ErrTooLong)
      | some s2 => s2.read.Scan fuel := by
  rw [Scanner.Scan, h]
  simp only [he, ne_eq, not_true_eq_false, if_false]

/-- A buffer that cannot grow holds a full token's worth of data. -/
theorem grow_none_data (s : Scanner) (rest : List Byte) (h : s.WF rest)
    (hg : s.shift.grow = none) : s.data.length = MaxScanTokenSize := by
  obtain ⟨hw, hd⟩ := shift_WF s rest h
  obtain ⟨h1, h2⟩ := grow_none _ _ hw hg
  have h3 := shift_start s (by rw [h1])
  have h4 := hw.data_length
  rw [hd] at h4
  omega

theorem Scan_line (fuel : Nat) (s : Scanner) (l rest : List Byte)
    (h : s.WF (l ++ 10 :: rest)) (hl : (10 : Byte) ∉ l) (hlen : l.length < MaxScanTokenSize)
    (hf : s.turns < fuel) :
    ∃ t s1, s.Scan fuel = .ok (some t, s1) ∧ s1.WF rest ∧ s1.view t = dropCR l ∧
      t.len = (dropCR l).length ∧ l.length + 1 ≤ t.cap := by
  induction fuel generalizing s with
  | zero => omega
  | succ fuel ih =>
    have hsp := split_at_newline s.data s.r l rest h.rest_eq hl
    have hdl := h.data_length
    have hse := h.start_le
    by_cases hm : (10 : Byte) ∈ s.data
    · obtain ⟨d, hd, hrest⟩ := hsp.1 hm
      have hts := trySplit_newline s _ l d h hd hl
      have hdl2 := hdl
      rw [hd] at hdl2
      simp only [List.length_append, List.length_cons] at hdl2
      refine ⟨_, _, by rw [Scanner.Scan, hts], ?_, ?_, rfl, ?_⟩
      · have hda := data_advance s (l.length + 1)
        have hsplit : l ++ 10 :: d = (l ++ [10]) ++ d := by simp
        rw [hd, hsplit, List.drop_left' (by simp)] at hda
        constructor
        · simp only; omega
        · exact h.end_le
        · exact h.buf_le
        · exact h.len_le
        · rw [hda]; exact hrest
        · exact h.err_ok
      · rw [view_current s _ _ _ (by have := dropCR_length_le l; omega), hd,
          List.take_append_of_le_length (dropCR_length_le l)]
        exact (dropCR_eq_take l).symm
      · have := h.end_le
        have := h.buf_le
        simp only
        omega
    · obtain ⟨m, hlm, hr⟩ := hsp.2 hm
      have hrne : s.r ≠ [] := by rw [hr]; simp
      have he : s.err = none := by
        rcases h.err_ok with he | ⟨_, he⟩
        · exact he
        · exact absurd he hrne
      rw [Scan_step fuel s (trySplit_wait s hm he) he]
      obtain ⟨hw, hsd⟩ := shift_WF s _ h
      cases hg : s.shift.grow with
      | none =>
        have := grow_none_data s _ h hg
        have : s.data.length ≤ l.length := by rw [hlm]; simp
        omega
      | some s2 =>
        obtain ⟨hw2, hd2, hroom⟩ := grow_WF _ _ _ hw hg
        obtain ⟨hr2, he2, _⟩ := grow_some _ _ hg
        rw [shift_r] at hr2
        rw [shift_err] at he2
        have hw3 := (read_WF s2 _ hw2 (by rw [he2]; exact he) hroom (by rw [hr2]; exact hrne)).1
        have ht := read_turns s2 (by rw [he2]; exact he)
        have ht2 := grow_turns s s2 hg
        simp only
        exact ih s2.read hw3 (by omega)

theorem read_eof (s : Scanner) (rest : List Byte) (h : s.WF rest) (he : s.err = none)
    (hr : s.r = []) :
    s.read.WF rest ∧ s.read.err = some ScanErr.EOF ∧ s.read.data = s.data := by
  have hs : s.read = Scanner.mk s.r s.buf s.bufLen s.retired s.start s.end_
      (some ScanErr.EOF) := by
    unfold Scanner.read
    split
    · simp [Scanner.setErr, he]
    · rename_i h0; rw [hr] at h0; cases h0
  rw [hs]
  exact ⟨⟨h.start_le, h.end_le, h.buf_le, h.len_le, h.rest_eq, Or.inr ⟨rfl, hr⟩⟩, rfl, rfl⟩

theorem Scan_last (fuel : Nat) (s : Scanner) (l : List Byte)
    (h : s.WF l) (hl : (10 : Byte) ∉ l) (hne : l ≠ []) (hlen : l.length < MaxScanTokenSize)
    (hf : s.turns < fuel) :
    ∃ t s1, s.Scan fuel = .ok (some t, s1) ∧ s1.WF [] ∧ s1.view t = dropCR l ∧
      t.len = (dropCR l).length ∧ l.length ≤ t.cap := by
  induction fuel generalizing s with
  | zero => omega
  | succ fuel ih =>
    have hdl := h.data_length
    have hse := h.start_le
    have hm : (10 : Byte) ∉ s.data := fun hc => hl (by
      rw [← h.rest_eq]; exact List.mem_append_left _ hc)
    have hdle : s.data.length ≤ l.length := by rw [← h.rest_eq]; simp
    rcases h.err_ok with he | ⟨he, hr⟩
    · rw [Scan_step fuel s (trySplit_wait s hm he) he]
      obtain ⟨hw, hsd⟩ := shift_WF s _ h
      cases hg : s.shift.grow with
      | none =>
        have := grow_none_data s _ h hg
        omega
      | some s2 =>
        obtain ⟨hw2, hd2, hroom⟩ := grow_WF _ _ _ hw hg
        obtain ⟨hr2, he2, _⟩ := grow_some _ _ hg
        rw [shift_r] at hr2
        rw [shift_err] at he2
        have ht := read_turns s2 (by rw [he2]; exact he)
        have ht2 := grow_turns s s2 hg
        simp only
        by_cases hrn : s.r = []
        · have hw3 := (read_eof s2 _ hw2 (by rw [he2]; exact he) (by rw [hr2]; exact hrn)).1
          exact ih s2.read hw3 (by omega)
        · have hw3 := (read_WF s2 _ hw2 (by rw [he2]; exact he) hroom
            (by rw [hr2]; exact hrn)).1
          exact ih s2.read hw3 (by omega)
    · have hdata : s.data = l := by
        have := h.rest_eq
        rw [hr, List.append_nil] at this
        exact this
      have hts := trySplit_last s _ h he hm (by rw [hdata]; exact hne)
      refine ⟨_, _, by rw [Scanner.Scan, hts], ?_, ?_, by rw [hdata], ?_⟩
      · have hda := data_advance s s.data.length
        rw [List.drop_length] at hda
        constructor
        · simp only; omega
        · exact h.end_le
        · exact h.buf_le
        · exact h.len_le
        · rw [hda]; simp [hr]
        · exact Or.inr ⟨he, hr⟩
      · rw [view_current s _ _ _ (by have := dropCR_length_le s.data; omega), hdata]
        exact (dropCR_eq_take l).symm
      · have := h.end_le
        have := h.buf_le
        have : l.length = s.data.length := by rw [hdata]
        simp only
        omega

theorem Scan_end (fuel : Nat) (s : Scanner) (h : s.WF []) (hf : s.turns < fuel) :
    ∃ s1, s.Scan fuel = .ok (none, s1) := by
  induction fuel generalizing s with
  | zero => omega
  | succ fuel ih =>
    have hdl := h.data_length
    have hre := h.rest_eq
    simp only [List.append_eq_nil] at hre
    have hm : (10 : Byte) ∉ s.data := by rw [hre.1]; simp
    rcases h.err_ok with he | ⟨he, hr⟩
    · rw [Scan_step fuel s (trySplit_wait s hm he) he]
      obtain ⟨hw, hsd⟩ := shift_WF s _ h
      cases hg : s.shift.grow with
      | none => exact ⟨_, rfl⟩
      | some s2 =>
        obtain ⟨hw2, hd2, hroom⟩ := grow_WF _ _ _ hw hg
        obtain ⟨hr2, he2, _⟩ := grow_some _ _ hg
        rw [shift_r] at hr2
        rw [shift_err] at he2
        have ht := read_turns s2 (by rw [he2]; exact he)
        have ht2 := grow_turns s s2 hg
        have hw3 := (read_eof s2 _ hw2 (by rw [he2]; exact he) (by rw [hr2]; exact hre.2)).1
        simp only
        exact ih s2.read hw3 (by omega)
    · rw [Scanner.Scan, trySplit_end s he hre.1]
      simp [he]

theorem Scan_tooLong (fuel : Nat) (s : Scanner) (rest : List Byte) (h : s.WF rest)
    (he : s.err = none) (hlen : MaxScanTokenSize ≤ rest.length)
    (hl : (10 : Byte) ∉ rest.take MaxScanTokenSize) (hf : s.turns < fuel) :
    ∃ s1, s.Scan fuel = .ok (none, s1) := by
  induction fuel generalizing s with
  | zero => omega
  | succ fuel ih =>
    have hdl := h.data_length
    have hdle : s.data.length ≤ MaxScanTokenSize := by
      have := h.start_le; have := h.end_le; have := h.buf_le; have := h.len_le
      omega
    have hm : (10 : Byte) ∉ s.data := by
      intro hc
      apply hl
      rw [← h.rest_eq, List.take_append_eq_append_take]
      apply List.mem_append_left
      rw [List.take_of_length_le hdle]
      exact hc
    rw [Scan_step fuel s (trySplit_wait s hm he) he]
    obtain ⟨hw, hsd⟩ := shift_WF s _ h
    cases hg : s.shift.grow with
    | none => exact ⟨_, rfl⟩
    | some s2 =>
      obtain ⟨hw2, hd2, hroom⟩ := grow_WF _ _ _ hw hg
      obtain ⟨hr2, he2, _⟩ := grow_some _ _ hg
      rw [shift_r] at hr2
      rw [shift_err] at he2
      have ht := read_turns s2 (by rw [he2]; exact he)
      have ht2 := grow_turns s s2 hg
      have hrn : s.r ≠ [] := by
        intro hr
        have h1 := hw2.data_length
        have h2 := hw2.len_le
        have h3 := h.rest_eq
        rw [hr, List.append_nil] at h3
        rw [hd2, hsd, h3] at h1
        omega
      obtain ⟨hw3, _, _, he3, _⟩ := read_WF s2 _ hw2 (by rw [he2]; exact he) hroom
        (by rw [hr2]; exact hrn)
      simp only
      exact ih s2.read hw3 he3 (by omega)

/-! ## `locate` in closed form -/

theorem LocateError_in_range (e : Goparsify.Error) (s : List Byte) (h : e.Pos ≤ s.length) :
    e.LocateError s = (e.locate s).map (fun d => d.format e.Error) := by
  have h1 : ¬ (s.length : Int) < e.Pos := by omega
  unfold Error.LocateError
  simp only [h1, if_false]
  cases e.locate s <;> rfl

theorem locate_of_scan (e : Goparsify.Error) (s : List Byte) (v : Vars) (byline : Scanner)
    (hs : e.scan s = .ok (v, byline)) :
    e.locate s =
      if 0 ≤ e.Pos - v.prev ∧ e.Pos - v.prev ≤ (v.line.cap : Int) then
        match rightMargin (byline.view v.line) (makeIndent (e.Pos - v.prev).toNat)
            (e.Pos - v.prev) with
        | .ok (line1, indent1) =>
          match longLine line1 with
          | .ok l => .ok { lino := v.lino, line := l, indent := indent1 }
          | .error f => .error f
        | .error f => .error f
      else .error Fault.sliceBounds := by
  unfold Error.locate
  simp only [hs, bind, Except.bind, lenSliceTo]
  by_cases hr : 0 ≤ e.Pos - v.prev ∧ e.Pos - v.prev ≤ (v.line.cap : Int)
  · simp only [hr, and_self, if_true]
    cases h1 : rightMargin (byline.view v.line) (makeIndent (e.Pos - v.prev).toNat)
        (e.Pos - v.prev) with
    | error f => rfl
    | ok p =>
      obtain ⟨line1, indent1⟩ := p
      simp only
      cases h2 : longLine line1 with
      | error f => rfl
      | ok l => rfl
  · simp only [hr, if_false]

theorem locate_small (e : Goparsify.Error) (s : List Byte) (v : Vars) (byline : Scanner)
    (hs : e.scan s = .ok (v, byline)) (h0 : 0 ≤ e.Pos - v.prev)
    (hcap : e.Pos - v.prev ≤ (v.line.cap : Int)) (h40 : e.Pos - v.prev ≤ 40) :
    e.locate s = .ok
      { lino := v.lino,
        line := if 70 < (byline.view v.line).length
          then (byline.view v.line).take 67 ++ [46, 46, 46] else byline.view v.line,
        indent := List.replicate (e.Pos - v.prev).toNat 32 } := by
  have h1 : ¬ 40 < e.Pos - v.prev := by omega
  rw [locate_of_scan e s v byline hs]
  simp only [h0, hcap, and_self, if_true, rightMargin_le _ _ _ h1, longLine_eq, makeIndent_eq]

theorem locate_large (e : Goparsify.Error) (s : List Byte) (v : Vars) (byline : Scanner)
    (hs : e.scan s = .ok (v, byline)) (h40 : 40 < e.Pos - v.prev)
    (hcap : e.Pos - v.prev ≤ (v.line.cap : Int)) :
    e.locate s =
      if (e.Pos - v.prev).toNat ≤ (byline.view v.line).length + 27 then
        .ok { lino := v.lino,
              line :=
                if 70 < (46 :: 46 :: 46 ::
                    (byline.view v.line).drop ((e.Pos - v.prev).toNat - 27)).length
                then (46 :: 46 :: 46 ::
                    (byline.view v.line).drop ((e.Pos - v.prev).toNat - 27)).take 67
                  ++ [46, 46, 46]
                else 46 :: 46 :: 46 ::
                    (byline.view v.line).drop ((e.Pos - v.prev).toNat - 27),
              indent := List.replicate 30 32 }
      else if (e.Pos - v.prev).toNat ≤ (byline.view v.line).length + 30 then
        .error Fault.indexRange
      else .error Fault.sliceBounds := by
  have h0 : 0 ≤ e.Pos - v.prev := by omega
  obtain ⟨c, hc⟩ := Int.eq_ofNat_of_zero_le h0
  have hc40 : 40 < c := by omega
  rw [locate_of_scan e s v byline hs]
  simp only [h0, hcap, and_self, if_true]
  rw [hc, Int.toNat_ofNat,
    rightMargin_eq _ _ c hc40 (by rw [makeIndent_eq, List.length_replicate])]
  by_cases h1 : c ≤ (byline.view v.line).length + 27
  · have h30 : c - (c - 30) = 30 := by omega
    simp only [h1, if_true, longLine_eq, makeIndent_eq, List.drop_replicate, h30]
  · simp only [h1, if_false]
    by_cases h2 : c ≤ (byline.view v.line).length + 30
    · simp only [h2, if_true]
    · simp only [h2, if_false]

theorem locate_ok_parts (e : Goparsify.Error) (s : List Byte) (v : Vars) (byline : Scanner)
    (d : Diagnostic) (hs : e.scan s = .ok (v, byline)) (h : e.locate s = .ok d) :
    (0 ≤ e.Pos - v.prev ∧ e.Pos - v.prev ≤ (v.line.cap : Int)) ∧
    ∃ line1,
      rightMargin (byline.view v.line) (makeIndent (e.Pos - v.prev).toNat) (e.Pos - v.prev)
        = .ok (line1, d.indent) ∧
      longLine line1 = .ok d.line ∧ d.lino = v.lino := by
  rw [locate_of_scan e s v byline hs] at h
  by_cases hr : 0 ≤ e.Pos - v.prev ∧ e.Pos - v.prev ≤ (v.line.cap : Int)
  · refine ⟨hr, ?_⟩
    simp only [hr, and_self, if_true] at h
    cases h1 : rightMargin (byline.view v.line) (makeIndent (e.Pos - v.prev).toNat)
        (e.Pos - v.prev) with
    | error f => rw [h1] at h; simp at h
    | ok p =>
      obtain ⟨line1, indent1⟩ := p
      rw [h1] at h
      simp only at h
      cases h2 : longLine line1 with
      | error f => rw [h2] at h; simp at h
      | ok l =>
        rw [h2] at h
        simp only [Except.ok.injEq] at h
        subst h
        exact ⟨line1, rfl, h2, rfl⟩
  · simp only [hr, if_false] at h
    simp at h

theorem LocateError_ok (e : Goparsify.Error) (s r : List Byte) (hlen : e.Pos ≤ s.length)
    (h : e.LocateError s = .ok r) : ∃ d, e.locate s = .ok d ∧ r = d.format e.Error := by
  rw [LocateError_in_range e s hlen] at h
  cases hl : e.locate s with
  | error f => rw [hl] at h; simp [Except.map] at h
  | ok d =>
    rw [hl] at h
    simp only [Except.map, Except.ok.injEq] at h
    exact ⟨d, rfl, h.symm⟩


/-- The indent of every rendered diagnostic consists of spaces only: no tab of
the line reaches it. -/
theorem locate_indent_spaces (e : Goparsify.Error) (s : List Byte) (d : Diagnostic)
    (h : e.locate s = .ok d) : d.indent = List.replicate d.indent.length 32 := by
  obtain ⟨v, byline, hs⟩ := scan_ok e s
  obtain ⟨⟨h0, hcap⟩, _, _, _, _⟩ := locate_ok_parts e s v byline d hs h
  by_cases h40 : 40 < e.Pos - v.prev
  · have hl := locate_large e s v byline hs h40 hcap
    rw [h] at hl
    split at hl
    · simp only [Except.ok.injEq] at hl
      rw [hl]
      simp
    · split at hl <;> simp at hl
  · have hl := locate_small e s v byline hs h0 hcap (by omega)
    rw [h] at hl
    simp only [Except.ok.injEq] at hl
    rw [hl]
    simp

/-! ## The offset beyond the document -/

/-- C1: when the offset exceeds the length of the document (in bytes),
`LocateError` returns exactly what `Error()` returns, the one-line message
`offset <pos>: expected <expected>`, with no header, line or caret added. -/
theorem locateError_beyond_length (s expected : List Byte) (pos : Int)
    (h : (s.length : Int) < pos) :
    (Error.mk pos expected).LocateError s = .ok (Error.mk pos expected).Error ∧
    (Error.mk pos expected).Error
      = bytes "offset " ++ decimal pos ++ bytes ": expected " ++ expected := by
  constructor
  · simp [Error.LocateError, Error.Pos, h]
  · rfl

/-- The document `ab` with offset 5 and expectation `foo` gives
`offset 5: expected foo`. -/
theorem locateError_beyond_length_witness :
    ((bytes "ab").length : Int) < 5 ∧
    ((Error.mk 5 (bytes "foo")).LocateError (bytes "ab")
        = .ok (Error.mk 5 (bytes "foo")).Error ∧
      (Error.mk 5 (bytes "foo")).Error
        = bytes "offset " ++ decimal 5 ++ bytes ": expected " ++ bytes "foo") ∧
    (Error.mk 5 (bytes "foo")).LocateError (bytes "ab")
      = .ok (bytes "offset 5: expected foo") :=
  ⟨by decide, locateError_beyond_length (bytes "ab") (bytes "foo") 5 (by decide), by decide⟩

/-! ## Inputs on which the code departs from its description -/

set_option maxRecDepth 100000 in
/-- C2: `LocateError` panics on an in-range offset.  On the document of forty
lines `\r\n` (80 bytes) with the offset 80, its length, the scan ends without
its break at line 40 with `prev = 39` and an empty line, so the column is 41
and `line[off-30:]` is `line[11:]` of an empty slice: a slice bound out of
range.  A negative offset panics in `line[:pos-prev]`. -/
theorem locateError_panics_on_crlf_document :
    ((List.replicate 40 (bytes "\r\n")).flatten.length : Int) = 80 ∧
    ((Error.mk 80 (bytes "foo")).scan (List.replicate 40 (bytes "\r\n")).flatten).map
        (fun p => (p.1.lino, p.1.prev, p.1.off, p.2.view p.1.line))
      = .ok (40, 39, 40, []) ∧
    (Error.mk 80 (bytes "foo")).LocateError (List.replicate 40 (bytes "\r\n")).flatten
      = .error Fault.sliceBounds ∧
    (Error.mk (-1) (bytes "foo")).LocateError (bytes "a") = .error Fault.sliceBounds := by
  decide

/-- C3: on the empty document with offset 0 the scan loop runs no turn, and
`LocateError` prints the line number 0, not a positive one:
`Parsing error in line 0:`, an empty line, a caret without indent, and the message. -/
theorem locateError_line_zero_on_empty_document :
    (Error.mk 0 (bytes "foo")).locate [] = .ok { lino := 0, line := [], indent := [] } ∧
    (Error.mk 0 (bytes "foo")).LocateError []
      = .ok (bytes "Parsing error in line 0:\n\n^\noffset 0: expected foo\n") := by
  decide

/-- C4: in `line1\nline2\nline3` the offset 6 points at the first byte of the
second line, yet `LocateError` reports line 1 and renders `line1`, with the
caret one column past the `\n`: the scan stops at the first line with
`prev <= pos <= off`, and `off` of a line is the start of the next.  The offset 8
of the description does give line 2 and `line2`. -/
theorem locateError_first_byte_of_line_on_previous_line :
    (bytes "line1\nline2\nline3").drop 6 = bytes "line2\nline3" ∧
    (Error.mk 6 (bytes "foo")).locate (bytes "line1\nline2\nline3")
      = .ok { lino := 1, line := bytes "line1", indent := bytes "      " } ∧
    (Error.mk 6 (bytes "foo")).LocateError (bytes "line1\nline2\nline3")
      = .ok (bytes "Parsing error in line 1:\nline1\n      ^\noffset 6: expected foo\n") ∧
    (Error.mk 8 (bytes "foo")).locate (bytes "line1\nline2\nline3")
      = .ok { lino := 2, line := bytes "line2", indent := bytes "  " } := by
  decide

/-- C5: for the document `\tx` and offset 1 the indent printed before the
caret is one space, not the tab of the line: the loop over `indent` tests the
bytes of the freshly made `indent`, which are zero, never those of the line. -/
theorem locateError_indent_loses_tab :
    (Error.mk 1 (bytes "foo")).locate (bytes "\tx")
      = .ok { lino := 1, line := bytes "\tx", indent := bytes " " } ∧
    (Error.mk 1 (bytes "foo")).LocateError (bytes "\tx")
      = .ok (bytes "Parsing error in line 1:\n\tx\n ^\noffset 1: expected foo\n") ∧
    bytes " " ≠ bytes "\t" ∧
    makeIndent 1 = bytes " " := by
  decide

/-! ## Truncation of the rendered line -/

/-- C6: whenever `LocateError` renders a diagnostic for an in-range offset, the
rendered line has at most 70 bytes; if the column exceeds 40 it starts with
`...`; and if the line left by the right-margin step has more than 70 bytes, the
rendered line has exactly 70 bytes, the first 67 of them those of that line and
the last three `...`. -/
theorem rendered_line_truncated (e : Goparsify.Error) (s r : List Byte)
    (hlen : e.Pos ≤ s.length) (h : e.LocateError s = .ok r) :
    ∃ (v : Vars) (byline : Scanner) (line1 : List Byte) (d : Diagnostic),
      e.scan s = .ok (v, byline) ∧
      rightMargin (byline.view v.line) (makeIndent (e.Pos - v.prev).toNat) (e.Pos - v.prev)
        = .ok (line1, d.indent) ∧
      longLine line1 = .ok d.line ∧
      r = d.format e.Error ∧
      d.line.length ≤ 70 ∧
      (40 < e.Pos - v.prev → d.line.take 3 = bytes "...") ∧
      (70 < line1.length →
        d.line.length = 70 ∧ d.line.take 67 = line1.take 67 ∧ d.line.drop 67 = bytes "...") := by
  obtain ⟨v, byline, hs⟩ := scan_ok e s
  obtain ⟨d, hd, hr⟩ := LocateError_ok e s r hlen h
  obtain ⟨⟨h0, hcap⟩, line1, hrm, hll, _⟩ := locate_ok_parts e s v byline d hs hd
  refine ⟨v, byline, line1, d, hs, hrm, hll, hr, ?_⟩
  rw [longLine_eq] at hll
  simp only [Except.ok.injEq] at hll
  rw [bytes_dots]
  by_cases h70 : 70 < line1.length
  · simp only [h70, if_true] at hll
    have h67 : (line1.take 67).length = 67 := by rw [List.length_take]; omega
    refine ⟨?_, ?_, ?_⟩
    · rw [← hll]; simp [h67]
    · intro h40
      obtain ⟨c, hc⟩ := Int.eq_ofNat_of_zero_le h0
      rw [hc, Int.toNat_ofNat, rightMargin_eq _ _ c (by omega)
        (by rw [makeIndent_eq, List.length_replicate])] at hrm
      split at hrm
      · simp only [Except.ok.injEq, Prod.mk.injEq] at hrm
        rw [← hll, ← hrm.1]
        simp
      · split at hrm <;> simp at hrm
    · intro _
      refine ⟨?_, ?_, ?_⟩
      · rw [← hll]; simp [h67]
      · rw [← hll]; exact List.take_left' h67
      · rw [← hll]; exact List.drop_left' h67
  · simp only [h70, if_false] at hll
    subst hll
    refine ⟨by omega, ?_, fun h => absurd h h70⟩
    intro h40
    obtain ⟨c, hc⟩ := Int.eq_ofNat_of_zero_le h0
    rw [hc, Int.toNat_ofNat, rightMargin_eq _ _ c (by omega)
      (by rw [makeIndent_eq, List.length_replicate])] at hrm
    split at hrm
    · simp only [Except.ok.injEq, Prod.mk.injEq] at hrm
      rw [← hrm.1]
      simp
    · split at hrm <;> simp at hrm

set_option maxRecDepth 100000 in
/-- A line of 100 bytes `a` with the offset at column 50 is rendered as 70 bytes
that start and end with `...`. -/
theorem rendered_line_truncated_witness :
    (Error.mk 50 (bytes "foo")).Pos ≤ ((List.replicate 100 97 : List Byte).length : Int) ∧
    (Error.mk 50 (bytes "foo")).LocateError (List.replicate 100 97)
      = .ok (bytes "Parsing error in line 1:\n" ++ bytes "..." ++ List.replicate 64 97
          ++ bytes "..." ++ bytes "\n" ++ List.replicate 30 32 ++ bytes "^\n"
          ++ bytes "offset 50: expected foo\n") ∧
    ∃ (v : Vars) (byline : Scanner) (line1 : List Byte) (d : Diagnostic),
      (Error.mk 50 (bytes "foo")).scan (List.replicate 100 97) = .ok (v, byline) ∧
      rightMargin (byline.view v.line)
          (makeIndent ((Error.mk 50 (bytes "foo")).Pos - v.prev).toNat)
          ((Error.mk 50 (bytes "foo")).Pos - v.prev)
        = .ok (line1, d.indent) ∧
      longLine line1 = .ok d.line ∧
      (bytes "Parsing error in line 1:\n" ++ bytes "..." ++ List.replicate 64 97
          ++ bytes "..." ++ bytes "\n" ++ List.replicate 30 32 ++ bytes "^\n"
          ++ bytes "offset 50: expected foo\n") = d.format (Error.mk 50 (bytes "foo")).Error ∧
      d.line.length ≤ 70 ∧
      (40 < (Error.mk 50 (bytes "foo")).Pos - v.prev → d.line.take 3 = bytes "...") ∧
      (70 < line1.length →
        d.line.length = 70 ∧ d.line.take 67 = line1.take 67 ∧ d.line.drop 67 = bytes "...") :=
  ⟨by decide, by decide,
    rendered_line_truncated (Error.mk 50 (bytes "foo")) (List.replicate 100 97)
      (bytes "Parsing error in line 1:\n" ++ bytes "..." ++ List.replicate 64 97
          ++ bytes "..." ++ bytes "\n" ++ List.replicate 30 32 ++ bytes "^\n"
          ++ bytes "offset 50: expected foo\n")
      (by decide) (by decide)⟩

set_option maxRecDepth 100000 in
/-- C7, as stated, fails: for a line of 100 bytes `a` and offset 50 (column 50)
the line left by the right-margin step is `...` followed by the 77 bytes from
index 23 to the end of the line, 80 bytes in all, not the 30 bytes `...` and
bytes 23 to 49. -/
theorem rightMargin_line_not_30_bytes :
    ((Error.mk 50 (bytes "foo")).scan (List.replicate 100 97)).map
        (fun p => (p.1.prev, p.2.view p.1.line))
      = .ok (0, List.replicate 100 97) ∧
    rightMargin (List.replicate 100 97) (makeIndent 50) 50
      = .ok (bytes "..." ++ List.replicate 77 97, List.replicate 30 32) ∧
    (bytes "..." ++ List.replicate 77 97 : List Byte).length = 80 ∧
    (bytes "..." ++ List.replicate 77 97 : List Byte)
      ≠ bytes "..." ++ ((List.replicate 100 97 : List Byte).drop (50 - 27)).take 27 := by
  decide

/-- C7, amended: whenever `LocateError` renders a diagnostic for an in-range
offset whose column `c` exceeds 40, the indent is cut to exactly 30 bytes, and
the line is cut from `c - 30` to its end, not to `c`, with `...` written over
its first three bytes: before the long-line step it is `...` followed by the
bytes of the line from `c - 27` on, of length `len(line) + 30 - c`. -/
theorem rightMargin_keeps_line_tail (e : Goparsify.Error) (s r : List Byte)
    (hlen : e.Pos ≤ s.length) (h : e.LocateError s = .ok r) :
    ∃ (v : Vars) (byline : Scanner), e.scan s = .ok (v, byline) ∧
      (40 < e.Pos - v.prev →
        rightMargin (byline.view v.line) (makeIndent (e.Pos - v.prev).toNat)
            (e.Pos - v.prev)
          = .ok (bytes "..." ++ (byline.view v.line).drop ((e.Pos - v.prev).toNat - 27),
              List.replicate 30 32) ∧
        (bytes "..." ++ (byline.view v.line).drop ((e.Pos - v.prev).toNat - 27)).length
          = (byline.view v.line).length + 30 - (e.Pos - v.prev).toNat ∧
        ∃ l,
          longLine (bytes "..." ++
            (byline.view v.line).drop ((e.Pos - v.prev).toNat - 27)) = .ok l ∧
          r = Diagnostic.format { lino := v.lino, line := l, indent := List.replicate 30 32 }
            e.Error) := by
  obtain ⟨v, byline, hs⟩ := scan_ok e s
  refine ⟨v, byline, hs, fun h40 => ?_⟩
  obtain ⟨d, hd, hr⟩ := LocateError_ok e s r hlen h
  obtain ⟨⟨h0, hcap⟩, _⟩ := locate_ok_parts e s v byline d hs hd
  obtain ⟨c, hc⟩ := Int.eq_ofNat_of_zero_le h0
  have hc40 : 40 < c := by omega
  have hl := locate_large e s v byline hs h40 hcap
  rw [hd, hc, Int.toNat_ofNat] at hl
  rw [bytes_dots, hc, Int.toNat_ofNat]
  by_cases hfit : c ≤ (byline.view v.line).length + 27
  · simp only [hfit, if_true, Except.ok.injEq] at hl
    refine ⟨?_, ?_, ?_⟩
    · rw [rightMargin_eq _ _ c hc40 (by rw [makeIndent_eq, List.length_replicate])]
      have h30 : c - (c - 30) = 30 := by omega
      simp [hfit, makeIndent_eq, h30]
    · simp only [List.length_append, List.length_cons, List.length_nil, List.length_drop]
      omega
    · refine ⟨_, longLine_eq _, ?_⟩
      rw [hr, hl]
      rfl
  · simp only [hfit, if_false] at hl
    by_cases h2 : c ≤ (byline.view v.line).length + 30
    · simp only [h2, if_true] at hl; cases hl
    · simp only [h2, if_false] at hl; cases hl

set_option maxRecDepth 100000 in
/-- The document `ab\n` followed by 60 bytes `x`, with offset 48: the column in
the second line is 45, the line is rendered as `...` and its 42 bytes from
index 18 on, and the caret has 30 spaces before it. -/
theorem rightMargin_keeps_line_tail_witness :
    (Error.mk 48 (bytes "foo")).Pos ≤ ((bytes "ab\n" ++ List.replicate 60 120).length : Int) ∧
    (Error.mk 48 (bytes "foo")).LocateError (bytes "ab\n" ++ List.replicate 60 120)
      = .ok (bytes "Parsing error in line 2:\n..." ++ List.replicate 42 120 ++ bytes "\n"
          ++ List.replicate 30 32 ++ bytes "^\noffset 48: expected foo\n") ∧
    ((Error.mk 48 (bytes "foo")).scan (bytes "ab\n" ++ List.replicate 60 120)).map
        (fun p => (p.1.lino, p.1.prev, p.2.view p.1.line))
      = .ok (2, 3, List.replicate 60 120) ∧
    ∃ (v : Vars) (byline : Scanner),
      (Error.mk 48 (bytes "foo")).scan (bytes "ab\n" ++ List.replicate 60 120)
        = .ok (v, byline) ∧
      (40 < (Error.mk 48 (bytes "foo")).Pos - v.prev →
        rightMargin (byline.view v.line)
            (makeIndent ((Error.mk 48 (bytes "foo")).Pos - v.prev).toNat)
            ((Error.mk 48 (bytes "foo")).Pos - v.prev)
          = .ok (bytes "..." ++ (byline.view v.line).drop
                (((Error.mk 48 (bytes "foo")).Pos - v.prev).toNat - 27),
              List.replicate 30 32) ∧
        (bytes "..." ++ (byline.view v.line).drop
            (((Error.mk 48 (bytes "foo")).Pos - v.prev).toNat - 27)).length
          = (byline.view v.line).length + 30
            - ((Error.mk 48 (bytes "foo")).Pos - v.prev).toNat ∧
        ∃ l,
          longLine (bytes "..." ++ (byline.view v.line).drop
            (((Error.mk 48 (bytes "foo")).Pos - v.prev).toNat - 27)) = .ok l ∧
          bytes "Parsing error in line 2:\n..." ++ List.replicate 42 120 ++ bytes "\n"
              ++ List.replicate 30 32 ++ bytes "^\noffset 48: expected foo\n"
            = Diagnostic.format
                { lino := v.lino, line := l, indent := List.replicate 30 32 }
                (Error.mk 48 (bytes "foo")).Error) :=
  ⟨by decide, by decide, by decide,
    rightMargin_keeps_line_tail (Error.mk 48 (bytes "foo"))
      (bytes "ab\n" ++ List.replicate 60 120)
      (bytes "Parsing error in line 2:\n..." ++ List.replicate 42 120 ++ bytes "\n"
          ++ List.replicate 30 32 ++ bytes "^\noffset 48: expected foo\n")
      (by decide) (by decide)⟩

/-! ## The error messages -/

/-- C8: for every integer `pos`, negative ones included, and every text
`expected`, `Error()` is `offset `, the decimal of `pos`, `: expected ` and then
`expected` verbatim, and `Pos()` is `pos` unchanged; with `pos = 0` and
`expected = identifier` the message is `offset 0: expected identifier`. -/
theorem error_message_format :
    (∀ (pos : Int) (expected : List Byte),
      (Error.mk pos expected).Error
          = bytes "offset " ++ decimal pos ++ bytes ": expected " ++ expected ∧
        (Error.mk pos expected).Error.drop (7 + (decimal pos).length + 11) = expected ∧
        (Error.mk pos expected).Pos = pos) ∧
    (Error.mk 0 (bytes "identifier")).Error = bytes "offset 0: expected identifier" ∧
    (Error.mk (-12) (bytes "identifier")).Error = bytes "offset -12: expected identifier" := by
  refine ⟨fun pos expected => ⟨rfl, ?_, rfl⟩, by decide, by decide⟩
  have h7 : (bytes "offset ").length = 7 := by decide
  have h11 : (bytes ": expected ").length = 11 := by decide
  have hlen : (bytes "offset " ++ decimal pos ++ bytes ": expected ").length
      = 7 + (decimal pos).length + 11 := by
    simp only [List.length_append, h7, h11]
  unfold Error.Error
  rw [← hlen]
  exact List.drop_left _ _

/-- C9: for every text `remaining`, the message of `UnparsedInputError` is the
15-byte prefix `left unparsed: ` followed by `remaining` verbatim: its length is
15 plus that of `remaining`, and dropping the prefix recovers `remaining`; with
`remaining = )` the message is `left unparsed: )`. -/
theorem unparsedInputError_message :
    (∀ remaining : List Byte,
      (UnparsedInputError.mk remaining).Error = bytes "left unparsed: " ++ remaining ∧
        (bytes "left unparsed: ").length = 15 ∧
        (UnparsedInputError.mk remaining).Error.length = 15 + remaining.length ∧
        (UnparsedInputError.mk remaining).Error.drop 15 = remaining) ∧
    (UnparsedInputError.mk (bytes ")")).Error = bytes "left unparsed: )" := by
  have h15 : (bytes "left unparsed: ").length = 15 := by decide
  refine ⟨fun remaining => ⟨rfl, h15, ?_, ?_⟩, by decide⟩
  · simp [UnparsedInputError.Error, List.length_append, h15]
  · unfold UnparsedInputError.Error
    rw [← h15]
    exact List.drop_left _ _

/-! ## An offset at a line delimiter -/

/-- C10: in `a\n\nb` the offset 2 is the `\n` that ends the empty second line
(one `\n` lies before it), yet `LocateError` reports line 1: the first line has
`prev = 0` and `off = 2`, and the scan stops there because `pos <= off`. -/
theorem locateError_empty_line_delimiter_on_previous_line :
    (bytes "a\n\nb").drop 2 = bytes "\nb" ∧
    (bytes "a\n\nb").take 2 = bytes "a\n" ∧
    (Error.mk 2 (bytes "foo")).locate (bytes "a\n\nb")
      = .ok { lino := 1, line := bytes "a", indent := bytes "  " } ∧
    (Error.mk 2 (bytes "foo")).LocateError (bytes "a\n\nb")
      = .ok (bytes "Parsing error in line 1:\na\n  ^\noffset 2: expected foo\n") := by
  decide

/-! ## The scan loop, line by line -/

theorem dropCR_of_no_cr (l : List Byte) (h : (13 : Byte) ∉ l) : dropCR l = l := by
  unfold dropCR
  split
  · rename_i h1
    exact absurd (List.mem_of_mem_getLast? h1) h
  · rfl

/-- A list that contains a newline begins with a line: a part without newline,
then the first newline. -/
theorem first_line_split (x : List Byte) (h : (10 : Byte) ∈ x) :
    ∃ l1 x1, x = l1 ++ 10 :: x1 ∧ (10 : Byte) ∉ l1 := by
  induction x with
  | nil => simp at h
  | cons b rest ih =>
    by_cases hb : b = 10
    · exact ⟨[], rest, by simp [hb], by simp⟩
    · have hr : (10 : Byte) ∈ rest := by
        rcases List.mem_cons.mp h with h1 | h1
        · exact absurd h1.symm hb
        · exact h1
      obtain ⟨l1, x1, hx, hl⟩ := ih hr
      refine ⟨b :: l1, x1, by simp [hx], ?_⟩
      intro hc
      rcases List.mem_cons.mp hc with h1 | h1
      · exact hb h1.symm
      · exact hl h1

theorem scanLoop_token (pos : Int) (fuel : Nat) (byline b1 : Scanner) (v : Vars) (t : Slice)
    (h : byline.Scan (byline.r.length + 2) = .ok (some t, b1)) :
    scanLoop pos (fuel + 1) byline v =
      if v.off ≤ pos ∧ pos ≤ v.off + t.len + 1 then
        .ok ({ lino := v.lino + 1, line := t, prev := v.off, off := v.off + t.len + 1 }, b1)
      else
        scanLoop pos fuel b1
          { lino := v.lino + 1, line := t, prev := v.off, off := v.off + t.len + 1 } := by
  rw [scanLoop, h]

theorem scanLoop_none (pos : Int) (fuel : Nat) (byline b1 : Scanner) (v : Vars)
    (h : byline.Scan (byline.r.length + 2) = .ok (none, b1)) :
    scanLoop pos (fuel + 1) byline v = .ok (v, b1) := by
  rw [scanLoop, h]

theorem turns_lt (s : Scanner) : s.turns < s.r.length + 2 := by
  unfold Scanner.turns
  split <;> omega

/-- The scan loop on a document without `\r` whose lines fit the scanner's
buffer: when the rest of the document is `pre ++ L ++ post`, with `pre` a run of
whole lines, `L` a line and the offset beyond `pre` but not beyond the end of
`L` and its delimiter, the loop stops at `L`. -/
theorem scanLoop_finds (pos : Int) (L post : List Byte) (hL : (10 : Byte) ∉ L)
    (hpost : post = [] ∨ post.head? = some 10) (hne : L ≠ [] ∨ post ≠ [])
    (fuel : Nat) (byline : Scanner) (v : Vars) (pre : List Byte)
    (hw : byline.WF (pre ++ L ++ post))
    (hcr : (13 : Byte) ∉ pre ++ L)
    (hlim : ∀ a l b, pre ++ L = a ++ l ++ b → (10 : Byte) ∉ l → l.length < MaxScanTokenSize)
    (hpre : pre = [] ∨ pre.getLast? = some 10)
    (h0 : v.off ≤ pos)
    (hfirst : pre = [] ∨ v.off + pre.length < pos)
    (hle : pos ≤ v.off + pre.length + L.length + 1)
    (hfuel : (pre ++ L ++ post).length < fuel) :
    ∃ v1 b1, scanLoop pos fuel byline v = .ok (v1, b1) ∧
      v1.lino = v.lino + pre.count 10 + 1 ∧
      v1.prev = v.off + pre.length ∧
      v1.off = v.off + pre.length + L.length + 1 ∧
      b1.view v1.line = L ∧ v1.line.len = L.length ∧
      (post ≠ [] → L.length + 1 ≤ v1.line.cap) ∧ L.length ≤ v1.line.cap := by
  induction fuel generalizing byline v pre with
  | zero => omega
  | succ fuel ih =>
    have hcrL : (13 : Byte) ∉ L := fun hc => hcr (List.mem_append_right _ hc)
    have hLlen : L.length < MaxScanTokenSize := hlim pre L [] (by simp) hL
    by_cases hp : pre = []
    · subst hp
      simp only [List.nil_append, List.length_nil, Nat.cast_zero, add_zero, List.count_nil]
        at hw hle ⊢
      cases post with
      | nil =>
        have hLne : L ≠ [] := by
          rcases hne with h | h
          · exact h
          · exact absurd rfl h
        rw [List.append_nil] at hw
        obtain ⟨t, b1, hscan, _, hview, htl, hcap⟩ :=
          Scan_last _ byline L hw hL hLne hLlen (turns_lt byline)
        rw [dropCR_of_no_cr L hcrL] at hview htl
        rw [scanLoop_token pos fuel byline b1 v t hscan]
        have htest : v.off ≤ pos ∧ pos ≤ v.off + (t.len : Int) + 1 := by
          rw [htl]; exact ⟨h0, hle⟩
        rw [if_pos htest]
        exact ⟨_, _, rfl, rfl, rfl, by simp [htl], hview, htl, fun h => absurd rfl h, hcap⟩
      | cons c post1 =>
        have hc : c = 10 := by
          rcases hpost with h | h
          · cases h
          · simpa using h
        subst hc
        obtain ⟨t, b1, hscan, _, hview, htl, hcap⟩ :=
          Scan_line _ byline L post1 hw hL hLlen (turns_lt byline)
        rw [dropCR_of_no_cr L hcrL] at hview htl
        rw [scanLoop_token pos fuel byline b1 v t hscan]
        have htest : v.off ≤ pos ∧ pos ≤ v.off + (t.len : Int) + 1 := by
          rw [htl]; exact ⟨h0, hle⟩
        rw [if_pos htest]
        exact ⟨_, _, rfl, rfl, rfl, by simp [htl], hview, htl, fun _ => hcap,
          by show L.length ≤ t.cap; omega⟩
    · have hlast : pre.getLast? = some 10 := by
        rcases hpre with h | h
        · exact absurd h hp
        · exact h
      have hmem : (10 : Byte) ∈ pre := List.mem_of_mem_getLast? hlast
      obtain ⟨l1, pre1, hsplit, hl1⟩ := first_line_split pre hmem
      subst hsplit
      have hcr1 : (13 : Byte) ∉ l1 := fun hc =>
        hcr (List.mem_append_left _ (List.mem_append_left _ hc))
      have hl1len : l1.length < MaxScanTokenSize :=
        hlim [] l1 (10 :: pre1 ++ L) (by simp) hl1
      have hw1 : byline.WF (l1 ++ 10 :: (pre1 ++ L ++ post)) := by
        have e : l1 ++ 10 :: pre1 ++ L ++ post = l1 ++ 10 :: (pre1 ++ L ++ post) := by simp
        rw [← e]; exact hw
      obtain ⟨t, b1, hscan, hwb1, hview, htl, hcap⟩ :=
        Scan_line _ byline l1 (pre1 ++ L ++ post) hw1 hl1 hl1len (turns_lt byline)
      rw [dropCR_of_no_cr l1 hcr1] at htl
      have hf : v.off + ((l1 ++ 10 :: pre1).length : Int) < pos := by
        rcases hfirst with h | h
        · exact absurd h hp
        · exact h
      simp only [List.length_append, List.length_cons, Nat.cast_add, Nat.cast_one] at hf hle
      rw [scanLoop_token pos fuel byline b1 v t hscan]
      have htest : ¬ (v.off ≤ pos ∧ pos ≤ v.off + (t.len : Int) + 1) := by
        rw [htl]; intro h; omega
      rw [if_neg htest]
      have hpre1 : pre1 = [] ∨ pre1.getLast? = some 10 := by
        by_cases h : pre1 = []
        · exact Or.inl h
        · right
          rw [List.getLast?_append_cons, List.getLast?_cons] at hlast
          rw [← hlast]
          cases hg : pre1.getLast? with
          | none => exact absurd (List.getLast?_eq_none_iff.mp hg) h
          | some x => simp
      obtain ⟨v1, b2, hloop, hlino, hprev, hoff, hv, hlen, hcap1, hcap2⟩ :=
        ih b1 { lino := v.lino + 1, line := t, prev := v.off, off := v.off + t.len + 1 } pre1
          hwb1
          (fun hc => hcr (by
            rcases List.mem_append.mp hc with h | h
            · exact List.mem_append_left _ (List.mem_append_right _ (List.mem_cons_of_mem _ h))
            · exact List.mem_append_right _ h))
          (fun a l b hab hl => hlim (l1 ++ 10 :: a) l b (by
            simp only [List.append_assoc, List.cons_append] at hab ⊢
            rw [hab]) hl)
          hpre1
          (by simp only [htl]; omega)
          (Or.inr (by simp only [htl]; omega))
          (by simp only [htl]; omega)
          (by
            simp only [List.length_append, List.length_cons] at hfuel ⊢
            omega)
      refine ⟨v1, b2, hloop, ?_, ?_, ?_, hv, hlen, hcap1, hcap2⟩
      · rw [hlino]
        simp only [List.count_append, List.count_cons, List.count_eq_zero_of_not_mem hl1]
        simp
        omega
      · rw [hprev]
        simp only [htl, List.length_append, List.length_cons]
        push_cast
        omega
      · rw [hoff]
        simp only [htl, List.length_append, List.length_cons]
        push_cast
        omega

/-- The scan of `LocateError` on a document without `\r` whose lines fit the
scanner's buffer stops at the first line whose range, its delimiter and the
byte after it included, contains the offset. -/
theorem scan_finds (e : Goparsify.Error) (pre L post : List Byte)
    (hcr : (13 : Byte) ∉ pre ++ L)
    (hlim : ∀ a l b, pre ++ L = a ++ l ++ b → (10 : Byte) ∉ l → l.length < MaxScanTokenSize)
    (hpre : pre = [] ∨ pre.getLast? = some 10) (hL : (10 : Byte) ∉ L)
    (hpost : post = [] ∨ post.head? = some 10) (hne : L ≠ [] ∨ post ≠ [])
    (h0 : (pre.length : Int) ≤ e.Pos)
    (hfirst : pre = [] ∨ (pre.length : Int) < e.Pos)
    (hle : e.Pos ≤ pre.length + L.length + 1) :
    ∃ v byline, e.scan (pre ++ L ++ post) = .ok (v, byline) ∧
      v.lino = pre.count 10 + 1 ∧ v.prev = pre.length ∧
      v.off = pre.length + L.length + 1 ∧
      byline.view v.line = L ∧ v.line.len = L.length ∧
      (post ≠ [] → L.length + 1 ≤ v.line.cap) ∧ L.length ≤ v.line.cap := by
  have h := scanLoop_finds e.Pos L post hL hpost hne ((pre ++ L ++ post).length + 1)
    (NewScanner (pre ++ L ++ post)) Vars.init pre (NewScanner_WF _) hcr hlim hpre
    (by simp only [Vars.init]; omega)
    (by
      rcases hfirst with h | h
      · exact Or.inl h
      · right; simp only [Vars.init]; omega)
    (by simp only [Vars.init]; omega)
    (by omega)
  obtain ⟨v, b, hs, h1, h2, h3, h4⟩ := h
  refine ⟨v, b, hs, ?_, ?_, ?_, h4⟩
  · rw [h1]; simp [Vars.init]
  · rw [h2]; simp [Vars.init]
  · rw [h3]; simp [Vars.init]

/-- Every offset within a non-empty document has its line: the document is
whole lines `pre`, then a line `L` with the offset beyond `pre` and not beyond
the byte after the delimiter of `L`, then the rest. -/
theorem line_at (s : List Byte) (pos : Nat) (hs : s ≠ []) (hpos : pos ≤ s.length) :
    ∃ pre L post, s = pre ++ L ++ post ∧
      (pre = [] ∨ pre.getLast? = some 10) ∧ (10 : Byte) ∉ L ∧
      (post = [] ∨ post.head? = some 10) ∧ (L ≠ [] ∨ post ≠ []) ∧
      pre.length ≤ pos ∧ (pre = [] ∨ pre.length < pos) ∧ pos ≤ pre.length + L.length + 1 := by
  suffices H : ∀ (n : Nat) (s : List Byte) (pos : Nat), s.length = n → s ≠ [] →
      pos ≤ s.length →
      ∃ pre L post, s = pre ++ L ++ post ∧
        (pre = [] ∨ pre.getLast? = some 10) ∧ (10 : Byte) ∉ L ∧
        (post = [] ∨ post.head? = some 10) ∧ (L ≠ [] ∨ post ≠ []) ∧
        pre.length ≤ pos ∧ (pre = [] ∨ pre.length < pos) ∧
        pos ≤ pre.length + L.length + 1 from H _ s pos rfl hs hpos
  intro n
  induction n using Nat.strong_induction_on with
  | _ n ih =>
    intro s pos hn hs hpos
    by_cases hm : (10 : Byte) ∈ s
    · obtain ⟨l1, s1, hsplit, hl1⟩ := first_line_split s hm
      by_cases hp : pos ≤ l1.length + 1
      · exact ⟨[], l1, 10 :: s1, by simp [hsplit], Or.inl rfl, hl1, Or.inr rfl,
          Or.inr (by simp), by simp, Or.inl rfl, by simpa using hp⟩
      · have hlen : s.length = l1.length + 1 + s1.length := by
          rw [hsplit]; simp; omega
        have hs1 : s1 ≠ [] := by
          intro h; rw [h] at hlen; simp at hlen; omega
        obtain ⟨pre1, L, post, hd, hpre, hL, hpost, hne, h0, hfirst, hle⟩ :=
          ih s1.length (by omega) s1 (pos - (l1.length + 1)) rfl hs1 (by omega)
        refine ⟨l1 ++ 10 :: pre1, L, post, by rw [hsplit, hd]; simp, Or.inr ?_, hL, hpost, hne,
          ?_, Or.inr ?_, ?_⟩
        · rw [List.getLast?_append_cons, List.getLast?_cons]
          rcases hpre with h | h
          · simp [h]
          · simp [h]
        · simp only [List.length_append, List.length_cons]; omega
        · simp only [List.length_append, List.length_cons]
          rcases hfirst with h | h
          · simp [h]; omega
          · omega
        · simp only [List.length_append, List.length_cons]; omega
    · have hne : s ≠ [] := hs
      exact ⟨[], s, [], by simp, Or.inl rfl, hm, Or.inl rfl, Or.inl hne, by simp, Or.inl rfl,
        by simp; omega⟩

theorem scan_finds_cap (e : Goparsify.Error) (pre L post : List Byte) (v : Vars)
    (hprev : v.prev = pre.length)
    (hc1 : post ≠ [] → L.length + 1 ≤ v.line.cap) (hc2 : L.length ≤ v.line.cap)
    (hle : e.Pos ≤ pre.length + L.length + 1)
    (hlen : e.Pos ≤ (pre ++ L ++ post).length) :
    e.Pos - v.prev ≤ (v.line.cap : Int) := by
  by_cases hp : post = []
  · subst hp
    simp only [List.append_nil, List.length_append, Nat.cast_add] at hlen
    omega
  · have := hc1 hp
    omega

/-- The diagnostic for an offset whose column in its line is at most 40, on a
document without `\r` whose lines fit the scanner's buffer. -/
theorem locate_line_small (e : Goparsify.Error) (pre L post : List Byte)
    (hcr : (13 : Byte) ∉ pre ++ L)
    (hlim : ∀ a l b, pre ++ L = a ++ l ++ b → (10 : Byte) ∉ l → l.length < MaxScanTokenSize)
    (hpre : pre = [] ∨ pre.getLast? = some 10) (hL : (10 : Byte) ∉ L)
    (hpost : post = [] ∨ post.head? = some 10) (hne : L ≠ [] ∨ post ≠ [])
    (h0 : (pre.length : Int) ≤ e.Pos)
    (hfirst : pre = [] ∨ (pre.length : Int) < e.Pos)
    (hle : e.Pos ≤ pre.length + L.length + 1)
    (hlen : e.Pos ≤ (pre ++ L ++ post).length)
    (h40 : e.Pos - pre.length ≤ 40) :
    e.locate (pre ++ L ++ post) = .ok
      { lino := pre.count 10 + 1,
        line := if 70 < L.length then L.take 67 ++ [46, 46, 46] else L,
        indent := List.replicate (e.Pos - pre.length).toNat 32 } := by
  obtain ⟨v, byline, hs, hlino, hprev, _, hview, _, hc1, hc2⟩ :=
    scan_finds e pre L post hcr hlim hpre hL hpost hne h0 hfirst hle
  have hcap := scan_finds_cap e pre L post v hprev hc1 hc2 hle hlen
  rw [locate_small e _ v byline hs (by omega) hcap (by omega), hview, hlino, hprev]

/-- The diagnostic for an offset whose column in its line exceeds 40, on a
document without `\r` whose lines fit the scanner's buffer. -/
theorem locate_line_large (e : Goparsify.Error) (pre L post : List Byte)
    (hcr : (13 : Byte) ∉ pre ++ L)
    (hlim : ∀ a l b, pre ++ L = a ++ l ++ b → (10 : Byte) ∉ l → l.length < MaxScanTokenSize)
    (hpre : pre = [] ∨ pre.getLast? = some 10) (hL : (10 : Byte) ∉ L)
    (hpost : post = [] ∨ post.head? = some 10) (hne : L ≠ [] ∨ post ≠ [])
    (h0 : (pre.length : Int) ≤ e.Pos)
    (hfirst : pre = [] ∨ (pre.length : Int) < e.Pos)
    (hle : e.Pos ≤ pre.length + L.length + 1)
    (hlen : e.Pos ≤ (pre ++ L ++ post).length)
    (h40 : 40 < e.Pos - pre.length) :
    e.locate (pre ++ L ++ post) = .ok
      { lino := pre.count 10 + 1,
        line :=
          if 70 < (46 :: 46 :: 46 :: L.drop ((e.Pos - pre.length).toNat - 27)).length
          then (46 :: 46 :: 46 :: L.drop ((e.Pos - pre.length).toNat - 27)).take 67
            ++ [46, 46, 46]
          else 46 :: 46 :: 46 :: L.drop ((e.Pos - pre.length).toNat - 27),
        indent := List.replicate 30 32 } := by
  obtain ⟨v, byline, hs, hlino, hprev, _, hview, _, hc1, hc2⟩ :=
    scan_finds e pre L post hcr hlim hpre hL hpost hne h0 hfirst hle
  have hcap := scan_finds_cap e pre L post v hprev hc1 hc2 hle hlen
  rw [locate_large e _ v byline hs (by omega) hcap, hview, hlino, hprev]
  have hfit : (e.Pos - (pre.length : Int)).toNat ≤ L.length + 27 := by omega
  rw [if_pos hfit]

theorem limit_of_append (pre L post : List Byte)
    (hlim : ∀ a l b, pre ++ L ++ post = a ++ l ++ b → (10 : Byte) ∉ l →
      l.length < MaxScanTokenSize) :
    ∀ a l b, pre ++ L = a ++ l ++ b → (10 : Byte) ∉ l → l.length < MaxScanTokenSize :=
  fun a l b hab hl => hlim a l (b ++ post) (by rw [hab]; simp) hl

theorem limit_of_short (s : List Byte) (h : s.length < MaxScanTokenSize) :
    ∀ a l b, s = a ++ l ++ b → (10 : Byte) ∉ l → l.length < MaxScanTokenSize := by
  intro a l b hab _
  have := congrArg List.length hab
  simp only [List.length_append] at this
  omega

theorem limit_up_to (pre L post : List Byte) (pos : Nat) (hL : (10 : Byte) ∉ L)
    (hfirst : pre = [] ∨ pre.length < pos)
    (hlim : ∀ a l b, pre ++ L ++ post = a ++ l ++ b → (10 : Byte) ∉ l →
      a.length ≤ pos - 1 → l.length < MaxScanTokenSize) :
    ∀ a l b, pre ++ L = a ++ l ++ b → (10 : Byte) ∉ l → l.length < MaxScanTokenSize := by
  have hp : pre.length ≤ pos - 1 := by
    rcases hfirst with h | h
    · simp [h]
    · omega
  intro a l b hab hl
  by_cases ha : a.length ≤ pos - 1
  · exact hlim a l (b ++ post) (by rw [hab]; simp) hl ha
  · have hLlen : L.length < MaxScanTokenSize := hlim pre L post rfl hL hp
    have hlen := congrArg List.length hab
    simp only [List.length_append] at hlen
    omega

theorem limit_of_short_up_to (s : List Byte) (pos : Nat) (h : s.length < MaxScanTokenSize) :
    ∀ a l b, s = a ++ l ++ b → (10 : Byte) ∉ l → a.length ≤ pos - 1 →
      l.length < MaxScanTokenSize :=
  fun a l b hab hl _ => limit_of_short s h a l b hab hl

theorem count_take_line (pre L post : List Byte) (pos : Nat) (hL : (10 : Byte) ∉ L)
    (hfirst : pre = [] ∨ pre.length < pos) (hle : pos ≤ pre.length + L.length + 1) :
    ((pre ++ L ++ post).take (pos - 1)).count 10 = pre.count 10 := by
  have h1 : pre.length ≤ pos - 1 := by
    rcases hfirst with h | h
    · simp [h]
    · omega
  have h2 : pos - 1 - pre.length ≤ L.length := by omega
  rw [List.append_assoc, List.take_append_eq_append_take, List.take_of_length_le h1,
    List.take_append_of_le_length h2, List.count_append]
  have h3 : (10 : Byte) ∉ L.take (pos - 1 - pre.length) := fun hc => hL (List.mem_of_mem_take hc)
  rw [List.count_eq_zero_of_not_mem h3]
  rfl

/-- The line number reported for an offset in (or just after) the line `L` that
follows the whole lines `pre`: one more than the number of lines before it. -/
theorem locate_line_lino (e : Goparsify.Error) (pre L post : List Byte)
    (hcr : (13 : Byte) ∉ pre ++ L)
    (hlim : ∀ a l b, pre ++ L = a ++ l ++ b → (10 : Byte) ∉ l → l.length < MaxScanTokenSize)
    (hpre : pre = [] ∨ pre.getLast? = some 10) (hL : (10 : Byte) ∉ L)
    (hpost : post = [] ∨ post.head? = some 10) (hne : L ≠ [] ∨ post ≠ [])
    (h0 : (pre.length : Int) ≤ e.Pos)
    (hfirst : pre = [] ∨ (pre.length : Int) < e.Pos)
    (hle : e.Pos ≤ pre.length + L.length + 1)
    (hlen : e.Pos ≤ (pre ++ L ++ post).length) :
    ∃ d, e.locate (pre ++ L ++ post) = .ok d ∧ d.lino = pre.count 10 + 1 := by
  by_cases h40 : e.Pos - pre.length ≤ 40
  · exact ⟨_, locate_line_small e pre L post hcr hlim hpre hL hpost hne h0 hfirst hle hlen h40,
      rfl⟩
  · exact ⟨_, locate_line_large e pre L post hcr hlim hpre hL hpost hne h0 hfirst hle hlen
      (by omega), rfl⟩

theorem locate_lino (s expected : List Byte) (pos : Nat) (hs : s ≠ [])
    (hcr : (13 : Byte) ∉ s)
    (hlim : ∀ a l b, s = a ++ l ++ b → (10 : Byte) ∉ l → a.length ≤ pos - 1 →
      l.length < MaxScanTokenSize)
    (hpos : pos ≤ s.length) :
    ∃ d, (Error.mk pos expected).locate s = .ok d ∧
      d.lino = 1 + (((s.take (pos - 1)).count 10 : Nat) : Int) := by
  obtain ⟨pre, L, post, hd, hpre, hL, hpost, hne, h0, hfirst, hle⟩ := line_at s pos hs hpos
  subst hd
  obtain ⟨d, hloc, hlino⟩ := locate_line_lino (Error.mk pos expected) pre L post
    (fun hc => hcr (List.mem_append_left _ hc)) (limit_up_to pre L post pos hL hfirst hlim)
    hpre hL hpost hne (by simp only [Error.Pos]; exact_mod_cast h0)
    (by
      rcases hfirst with h | h
      · exact Or.inl h
      · right; simp only [Error.Pos]; exact_mod_cast h)
    (by simp only [Error.Pos]; exact_mod_cast hle)
    (by simp only [Error.Pos]; exact_mod_cast hpos)
  refine ⟨d, hloc, ?_⟩
  rw [hlino, count_take_line pre L post pos hL hfirst hle]
  omega

/-! ## How the scan loop ends -/

theorem scanLoopBreak_erase (pos : Int) (fuel : Nat) (byline : Scanner) (v : Vars) :
    (scanLoopBreak pos fuel byline v).map (fun q => (q.1, q.2.1)) = scanLoop pos fuel byline v := by
  induction fuel generalizing byline v with
  | zero => rfl
  | succ fuel ih =>
    rw [scanLoopBreak, scanLoop]
    cases hsc : byline.Scan (byline.r.length + 2) with
    | error f => rfl
    | ok p =>
      obtain ⟨o, b1⟩ := p
      cases o with
      | none => rfl
      | some t =>
        simp only
        split
        · rfl
        · exact ih _ _

theorem scanLoopBreak_flag (pos : Int) (fuel : Nat) (byline b1 : Scanner) (v p : Vars)
    (flag : Bool) (h : scanLoopBreak pos fuel byline v = .ok (p, b1, flag)) :
    (flag = false ∧ p = v) ∨
    (v.lino < p.lino ∧ (flag = true ↔ (p.prev ≤ pos ∧ pos ≤ p.off))) := by
  induction fuel generalizing byline v with
  | zero => simp [scanLoopBreak] at h
  | succ fuel ih =>
    rw [scanLoopBreak] at h
    cases hsc : byline.Scan (byline.r.length + 2) with
    | error f => rw [hsc] at h; simp at h
    | ok q =>
      obtain ⟨o, b2⟩ := q
      rw [hsc] at h
      cases o with
      | none =>
        simp only [Except.ok.injEq, Prod.mk.injEq] at h
        exact Or.inl ⟨h.2.2.symm, h.1.symm⟩
      | some t =>
        simp only at h
        split at h
        · rename_i htest
          simp only [Except.ok.injEq, Prod.mk.injEq] at h
          right
          rw [← h.1, ← h.2.2]
          exact ⟨by simp, by simp [htest]⟩
        · rename_i htest
          rcases ih _ _ h with ⟨hf, hp⟩ | ⟨hl, hiff⟩
          · right
            rw [hp, hf]
            exact ⟨by simp, by simp; intro h1; exact not_le.mp (fun h2 => htest ⟨h1, h2⟩)⟩
          · right
            refine ⟨?_, hiff⟩
            simp only at hl
            omega

/-! ## Lines beyond the token limit -/

/-- A document that begins with a full buffer of bytes without a newline: the
first `Scan` fails with `ErrTooLong`, the loop body never runs and the variables
keep their zero values. -/
theorem scan_tooLong (e : Goparsify.Error) (s : List Byte)
    (hlen : MaxScanTokenSize ≤ s.length) (hl : (10 : Byte) ∉ s.take MaxScanTokenSize) :
    ∃ byline, e.scan s = .ok (Vars.init, byline) := by
  obtain ⟨b1, hb⟩ := Scan_tooLong ((NewScanner s).r.length + 2) (NewScanner s) s
    (NewScanner_WF s) rfl hlen hl (turns_lt _)
  exact ⟨b1, scanLoop_none e.Pos s.length (NewScanner s) b1 Vars.init hb⟩

theorem locate_tooLong_panics (e : Goparsify.Error) (s : List Byte)
    (hlen : MaxScanTokenSize ≤ s.length) (hl : (10 : Byte) ∉ s.take MaxScanTokenSize)
    (hpos : 0 < e.Pos) : e.locate s = .error Fault.sliceBounds := by
  obtain ⟨b1, hs⟩ := scan_tooLong e s hlen hl
  rw [locate_of_scan e s Vars.init b1 hs]
  have h : ¬ (0 ≤ e.Pos - Vars.init.prev ∧ e.Pos - Vars.init.prev ≤ (Vars.init.line.cap : Int)) := by
    simp only [Vars.init]
    omega
  rw [if_neg h]

theorem locate_tooLong_zero (e : Goparsify.Error) (s : List Byte)
    (hlen : MaxScanTokenSize ≤ s.length) (hl : (10 : Byte) ∉ s.take MaxScanTokenSize)
    (hpos : e.Pos = 0) : e.locate s = .ok { lino := 0, line := [], indent := [] } := by
  obtain ⟨b1, hs⟩ := scan_tooLong e s hlen hl
  rw [locate_small e s Vars.init b1 hs (by simp [Vars.init, hpos]) (by simp [Vars.init, hpos])
    (by simp [Vars.init, hpos])]
  simp [Vars.init, Scanner.view, hpos]

theorem replicate_a_no_newline (n : Nat) (t : List Byte) (h : MaxScanTokenSize ≤ n) :
    (10 : Byte) ∉ (List.replicate n 97 ++ t).take MaxScanTokenSize := by
  rw [List.take_append_of_le_length (by rw [List.length_replicate]; exact h)]
  intro hc
  have h1 := List.mem_of_mem_take hc
  rw [List.mem_replicate] at h1
  exact absurd h1.2 (by decide)

/-- On a document that begins with at least 65536 bytes `a`, every offset
greater than zero makes `LocateError` panic. -/
theorem locateError_tooLong_panics (n : Nat) (t expected : List Byte) (pos : Nat)
    (hn : MaxScanTokenSize ≤ n) (h0 : 0 < pos) (hpos : pos ≤ n + t.length) :
    (Error.mk pos expected).LocateError (List.replicate n 97 ++ t)
      = .error Fault.sliceBounds := by
  have hlen : (List.replicate n (97 : Byte) ++ t).length = n + t.length := by
    rw [List.length_append, List.length_replicate]
  rw [LocateError_in_range _ _ (by rw [hlen]; simp only [Error.Pos]; exact_mod_cast hpos),
    locate_tooLong_panics _ _ (by rw [hlen]; omega) (replicate_a_no_newline n t hn)
      (by simp only [Error.Pos]; exact_mod_cast h0)]
  rfl

/-- On a document that begins with at least 65536 bytes `a`, the offset 0 is
reported in line 0. -/
theorem locateError_tooLong_zero (n : Nat) (t expected : List Byte)
    (hn : MaxScanTokenSize ≤ n) :
    (Error.mk 0 expected).LocateError (List.replicate n 97 ++ t)
      = .ok (Diagnostic.format { lino := 0, line := [], indent := [] }
          (Error.mk 0 expected).Error) := by
  have hlen : (List.replicate n (97 : Byte) ++ t).length = n + t.length := by
    rw [List.length_append, List.length_replicate]
  rw [LocateError_in_range _ _ (by rw [hlen]; simp only [Error.Pos]; omega),
    locate_tooLong_zero (Error.mk 0 expected) _ (by rw [hlen]; omega)
      (replicate_a_no_newline n t hn) rfl]
  rfl

theorem locateError_tooLong_panics_line (n : Nat) (expected : List Byte) (pos : Nat)
    (hn : MaxScanTokenSize ≤ n) (h0 : 0 < pos) (hpos : pos ≤ n) :
    (Error.mk pos expected).LocateError (List.replicate n 97) = .error Fault.sliceBounds := by
  have h := locateError_tooLong_panics n [] expected pos hn h0 (by simpa using hpos)
  rwa [List.append_nil] at h

theorem locateError_tooLong_zero_line (n : Nat) (expected : List Byte)
    (hn : MaxScanTokenSize ≤ n) :
    (Error.mk 0 expected).LocateError (List.replicate n 97)
      = .ok (Diagnostic.format { lino := 0, line := [], indent := [] }
          (Error.mk 0 expected).Error) := by
  have h := locateError_tooLong_zero n [] expected hn
  rwa [List.append_nil] at h

theorem replicate_a_no_cr (n : Nat) : (13 : Byte) ∉ List.replicate n (97 : Byte) := by
  intro hc
  exact absurd (List.mem_replicate.mp hc).2 (by decide)

theorem replicate_a_get (n i : Nat) (h : i < n) :
    (List.replicate n (97 : Byte))[i]? = some 97 := by
  rw [List.getElem?_replicate, if_pos h]

/-! ## The bookkeeping of the scan -/

/-- C11: on the CRLF document `ab\r\ncd` the scan bookkeeping lags behind the
true offsets: the second line begins at offset 4, yet the scan tracks
`prev = 3` for it (and `off = 3` for the first line, whose `\n` ends at 4), so
for the offset 5, the second byte of `cd`, the column is 2 instead of 1 and the
caret is printed past the end of the line. -/
theorem scan_offsets_lag_on_crlf_document :
    (bytes "ab\r\ncd").drop 4 = bytes "cd" ∧
    ((Error.mk 3 (bytes "foo")).scan (bytes "ab\r\ncd")).map
        (fun p => (p.1.lino, p.1.prev, p.1.off, p.2.view p.1.line))
      = .ok (1, 0, 3, bytes "ab") ∧
    ((Error.mk 5 (bytes "foo")).scan (bytes "ab\r\ncd")).map
        (fun p => (p.1.lino, p.1.prev, p.1.off, p.2.view p.1.line))
      = .ok (2, 3, 6, bytes "cd") ∧
    (Error.mk 5 (bytes "foo")).LocateError (bytes "ab\r\ncd")
      = .ok (bytes "Parsing error in line 2:\ncd\n  ^\noffset 5: expected foo\n") := by
  decide

/-! ## The caret and the indent -/

/-- C12: the document of 65536 bytes `a` has no `\r`, and the offset 5 points
at an `a` that does not follow a `\n`, yet `LocateError` renders no line and no
caret: the line exceeds the token limit of the scanner, `Scan` returns `false`
at once with an error the loop never looks at, `line` stays `nil` and
`line[:pos-prev]` panics. -/
theorem no_caret_beyond_token_limit :
    (List.replicate 65536 97 : List Byte).length = 65536 ∧
    (13 : Byte) ∉ (List.replicate 65536 97 : List Byte) ∧
    (List.replicate 65536 97 : List Byte)[5]? = some 97 ∧
    (List.replicate 65536 97 : List Byte)[4]? = some 97 ∧
    (Error.mk 5 (bytes "foo")).LocateError (List.replicate 65536 97)
      = .error Fault.sliceBounds :=
  ⟨List.length_replicate _ _, replicate_a_no_cr _, replicate_a_get _ _ (by decide),
    replicate_a_get _ _ (by decide),
    locateError_tooLong_panics_line 65536 (bytes "foo") 5 (by decide) (by decide) (by decide)⟩

/-- Where the scanner does not fail the caret sits under the offending byte: on
a document without `\r` in which every run of bytes without `\n` that begins
before the offset is shorter than 65536 bytes, for every offset `pos < len(s)`
with `s[pos]` not a `\n` and `pos` not immediately after a `\n`, `LocateError`
renders a diagnostic, and the byte of the rendered line at index `len(indent)`,
the position of the caret, exists and equals `s[pos]`, with or without
truncation.  Lines after the one of the offset are not restricted. -/
theorem caret_under_offending_byte (s expected : List Byte) (pos : Nat)
    (hcr : (13 : Byte) ∉ s)
    (hlim : ∀ a l b, s = a ++ l ++ b → (10 : Byte) ∉ l → a.length ≤ pos - 1 →
      l.length < MaxScanTokenSize)
    (hpos : pos < s.length) (hnl : s[pos]? ≠ some 10)
    (hbefore : pos = 0 ∨ s[pos - 1]? ≠ some 10) :
    ∃ (d : Diagnostic) (b : Byte),
      (Error.mk pos expected).locate s = .ok d ∧
      (Error.mk pos expected).LocateError s = .ok (d.format (Error.mk pos expected).Error) ∧
      s[pos]? = some b ∧ d.line[d.indent.length]? = some b := by
  have hs : s ≠ [] := by
    intro h; rw [h] at hpos; simp at hpos
  obtain ⟨pre, L, post, hd, hpre, hL, hpost, hne, h0, hfirst, hle⟩ :=
    line_at s pos hs (by omega)
  subst hd
  simp only [List.length_append] at hpos
  -- the offset lies within the line
  have hin : pos < pre.length + L.length := by
    by_contra hc
    have hp : post ≠ [] := by
      intro h; rw [h] at hpos; simp at hpos; omega
    have hhead : post[0]? = some 10 := by
      rcases hpost with h | h
      · exact absurd h hp
      · rw [← List.head?_eq_getElem?]; exact h
    by_cases heq : pos = pre.length + L.length
    · apply hnl
      rw [List.getElem?_append_right (by simp only [List.length_append]; omega)]
      simp only [List.length_append]
      rw [heq, Nat.sub_self]
      exact hhead
    · have h1 : pos = pre.length + L.length + 1 := by omega
      rcases hbefore with h | h
      · omega
      · apply h
        rw [List.getElem?_append_right (by simp only [List.length_append]; omega)]
        simp only [List.length_append]
        have h2 : pos - 1 - (pre.length + L.length) = 0 := by omega
        rw [h2]
        exact hhead
  have hget : (pre ++ L ++ post)[pos]? = L[pos - pre.length]? := by
    rw [List.append_assoc, List.getElem?_append_right h0,
      List.getElem?_append_left (by omega)]
  have hlt : pos - pre.length < L.length := by omega
  have hsome : L[pos - pre.length]? = some (L[pos - pre.length]) :=
    List.getElem?_eq_getElem hlt
  have hcast : ((Error.mk pos expected).Pos - (pre.length : Int)).toNat = pos - pre.length := by
    simp only [Error.Pos]; omega
  have hA := (fun hc => hcr (List.mem_append_left _ hc) : (13 : Byte) ∉ pre ++ L)
  have hB := limit_up_to pre L post pos hL hfirst hlim
  have h0' : (pre.length : Int) ≤ (Error.mk pos expected).Pos := by
    simp only [Error.Pos]; exact_mod_cast h0
  have hfirst' : pre = [] ∨ (pre.length : Int) < (Error.mk pos expected).Pos := by
    rcases hfirst with h | h
    · exact Or.inl h
    · right; simp only [Error.Pos]; exact_mod_cast h
  have hle' : (Error.mk pos expected).Pos ≤ pre.length + L.length + 1 := by
    simp only [Error.Pos]; exact_mod_cast hle
  have hlen' : (Error.mk pos expected).Pos ≤ (pre ++ L ++ post).length := by
    simp only [Error.Pos, List.length_append]; push_cast; omega
  have hLE : ∀ d, (Error.mk pos expected).locate (pre ++ L ++ post) = .ok d →
      (Error.mk pos expected).LocateError (pre ++ L ++ post)
        = .ok (d.format (Error.mk pos expected).Error) := by
    intro d hd
    rw [LocateError_in_range _ _ hlen', hd]
    rfl
  by_cases h40 : (Error.mk pos expected).Pos - pre.length ≤ 40
  · have hloc := locate_line_small (Error.mk pos expected) pre L post hA hB hpre hL hpost hne
      h0' hfirst' hle' hlen' h40
    refine ⟨_, L[pos - pre.length], hloc, hLE _ hloc, by rw [hget, hsome], ?_⟩
    have hc40 : pos - pre.length ≤ 40 := by simp only [Error.Pos] at h40; omega
    simp only [List.length_replicate, hcast]
    split
    · rename_i h70
      rw [List.getElem?_append_left (by rw [List.length_take]; omega), List.getElem?_take,
        if_pos (by omega), hsome]
    · exact hsome
  · have hloc := locate_line_large (Error.mk pos expected) pre L post hA hB hpre hL hpost hne
      h0' hfirst' hle' hlen' (by omega)
    refine ⟨_, L[pos - pre.length], hloc, hLE _ hloc, by rw [hget, hsome], ?_⟩
    have hc40 : 40 < pos - pre.length := by simp only [Error.Pos] at h40; omega
    simp only [List.length_replicate, hcast]
    have hidx : (46 :: 46 :: 46 :: L.drop (pos - pre.length - 27))[30]?
        = some (L[pos - pre.length]) := by
      simp only [List.getElem?_cons_succ]
      rw [List.getElem?_drop]
      have : pos - pre.length - 27 + 27 = pos - pre.length := by omega
      rw [this]
      exact hsome
    split
    · rename_i h70
      rw [List.getElem?_append_left (by rw [List.length_take]; omega), List.getElem?_take,
        if_pos (by omega)]
      exact hidx
    · exact hidx

set_option maxRecDepth 100000 in
/-- The document `ab\n` followed by a line of 50 bytes `x`, a `Y` and 40 bytes
`x`, with the offset 53 of the `Y`: the column is 50, both truncations apply,
and the byte at index 30 of the rendered line, under the caret, is the `Y`. -/
theorem caret_under_offending_byte_witness :
    (13 : Byte) ∉ bytes "ab\n" ++ List.replicate 50 120 ++ [89] ++ List.replicate 40 120 ∧
    (∀ a l b, bytes "ab\n" ++ List.replicate 50 120 ++ [89] ++ List.replicate 40 120
        = a ++ l ++ b → (10 : Byte) ∉ l → a.length ≤ 53 - 1 →
      l.length < MaxScanTokenSize) ∧
    53 < (bytes "ab\n" ++ List.replicate 50 120 ++ [89] ++ List.replicate 40 120).length ∧
    (bytes "ab\n" ++ List.replicate 50 120 ++ [89] ++ List.replicate 40 120)[53]? ≠ some 10 ∧
    (53 = 0 ∨
      (bytes "ab\n" ++ List.replicate 50 120 ++ [89] ++ List.replicate 40 120)[53 - 1]?
        ≠ some 10) ∧
    (Error.mk (53 : Nat) (bytes "foo")).locate
        (bytes "ab\n" ++ List.replicate 50 120 ++ [89] ++ List.replicate 40 120)
      = .ok { lino := 2,
              line := bytes "..." ++ List.replicate 27 120 ++ [89] ++ List.replicate 36 120
                ++ bytes "...",
              indent := List.replicate 30 32 } ∧
    (bytes "..." ++ List.replicate 27 120 ++ [89] ++ List.replicate 36 120
        ++ bytes "..." : List Byte)[30]? = some 89 ∧
    ∃ (d : Diagnostic) (b : Byte),
      (Error.mk (53 : Nat) (bytes "foo")).locate
          (bytes "ab\n" ++ List.replicate 50 120 ++ [89] ++ List.replicate 40 120) = .ok d ∧
      (Error.mk (53 : Nat) (bytes "foo")).LocateError
          (bytes "ab\n" ++ List.replicate 50 120 ++ [89] ++ List.replicate 40 120)
        = .ok (d.format (Error.mk (53 : Nat) (bytes "foo")).Error) ∧
      (bytes "ab\n" ++ List.replicate 50 120 ++ [89] ++ List.replicate 40 120)[53]?
        = some b ∧
      d.line[d.indent.length]? = some b :=
  ⟨by decide, limit_of_short_up_to _ 53 (by decide), by decide, by decide,
    Or.inr (by decide), by decide, by decide,
    caret_under_offending_byte
      (bytes "ab\n" ++ List.replicate 50 120 ++ [89] ++ List.replicate 40 120) (bytes "foo") 53
      (by decide) (limit_of_short_up_to _ 53 (by decide)) (by decide) (by decide)
      (Or.inr (by decide))⟩

/-- C13: whenever `LocateError` renders a diagnostic for an in-range offset,
with column `c = pos - prev`, the indent printed before the caret has `c` bytes
when `c <= 40` and exactly 30 bytes when `c > 40`; so it never has more than 40
bytes. -/
theorem indent_length (e : Goparsify.Error) (s r : List Byte)
    (hlen : e.Pos ≤ s.length) (h : e.LocateError s = .ok r) :
    ∃ (v : Vars) (byline : Scanner) (d : Diagnostic),
      e.scan s = .ok (v, byline) ∧ e.locate s = .ok d ∧ r = d.format e.Error ∧
      0 ≤ e.Pos - v.prev ∧
      (e.Pos - v.prev ≤ 40 → (d.indent.length : Int) = e.Pos - v.prev) ∧
      (40 < e.Pos - v.prev → d.indent.length = 30) ∧
      d.indent.length ≤ 40 := by
  obtain ⟨v, byline, hs⟩ := scan_ok e s
  obtain ⟨d, hd, hr⟩ := LocateError_ok e s r hlen h
  obtain ⟨⟨h0, hcap⟩, _⟩ := locate_ok_parts e s v byline d hs hd
  refine ⟨v, byline, d, hs, hd, hr, h0, ?_⟩
  by_cases h40 : 40 < e.Pos - v.prev
  · have hl := locate_large e s v byline hs h40 hcap
    rw [hd] at hl
    split at hl
    · simp only [Except.ok.injEq] at hl
      rw [hl]
      simp
      omega
    · split at hl <;> simp at hl
  · have hl := locate_small e s v byline hs h0 hcap (by omega)
    rw [hd] at hl
    simp only [Except.ok.injEq] at hl
    rw [hl]
    simp
    omega

set_option maxRecDepth 100000 in
/-- The document `hello world` with the offset 6: the column is 6 and six
spaces are printed before the caret. -/
theorem indent_length_witness :
    (Error.mk 6 (bytes "foo")).Pos ≤ ((bytes "hello world").length : Int) ∧
    (Error.mk 6 (bytes "foo")).LocateError (bytes "hello world")
      = .ok (bytes "Parsing error in line 1:\nhello world\n      ^\noffset 6: expected foo\n") ∧
    ∃ (v : Vars) (byline : Scanner) (d : Diagnostic),
      (Error.mk 6 (bytes "foo")).scan (bytes "hello world") = .ok (v, byline) ∧
      (Error.mk 6 (bytes "foo")).locate (bytes "hello world") = .ok d ∧
      bytes "Parsing error in line 1:\nhello world\n      ^\noffset 6: expected foo\n"
        = d.format (Error.mk 6 (bytes "foo")).Error ∧
      0 ≤ (Error.mk 6 (bytes "foo")).Pos - v.prev ∧
      ((Error.mk 6 (bytes "foo")).Pos - v.prev ≤ 40 →
        (d.indent.length : Int) = (Error.mk 6 (bytes "foo")).Pos - v.prev) ∧
      (40 < (Error.mk 6 (bytes "foo")).Pos - v.prev → d.indent.length = 30) ∧
      d.indent.length ≤ 40 :=
  ⟨by decide, by decide,
    indent_length (Error.mk 6 (bytes "foo")) (bytes "hello world")
      (bytes "Parsing error in line 1:\nhello world\n      ^\noffset 6: expected foo\n")
      (by decide) (by decide)⟩

/-! ## The diagnostic end to end -/

/-- C14: in the document of 65536 bytes `a`, a `\n` and `b` the offset 65538
lies in the range of the second line `b` only, at column 1, where the
diagnostic should be `Parsing error in line 2:`, the line `b` and one space
before the caret; yet `LocateError` panics: the first line exceeds the token
limit of the scanner, `Scan` returns `false` at once with an error the loop
never looks at, no line is scanned and `line[:pos-prev]` is out of bounds. -/
theorem no_diagnostic_after_long_line :
    bytes "\nb" = [10, 98] ∧
    (List.replicate 65536 97 ++ bytes "\nb" : List Byte).length = 65538 ∧
    (Error.mk 65538 (bytes "foo")).LocateError (List.replicate 65536 97 ++ bytes "\nb")
      = .error Fault.sliceBounds :=
  ⟨by decide, by rw [List.length_append, List.length_replicate]; rfl,
    locateError_tooLong_panics 65536 (bytes "\nb") (bytes "foo") 65538 (by decide) (by decide)
      (by decide)⟩

/-- Where the scanner does not fail the untruncated diagnostic is exact: let a
non-empty document without `\r` be `pre ++ L ++ post`,
with `pre` whole lines, `L` the first line whose range `[lineStart, lineEnd]`
contains the offset `0 <= pos <= len(s)`, and every line up to and including `L`
shorter than 65536 bytes, the token limit of the scanner.  If the column
`c = pos - lineStart` is at most 40 and `L` has at most 70 bytes, `LocateError`
returns exactly the header with the line number `k` (one more than the number
of lines in `pre`), the line `L` verbatim, `c` spaces and the caret, and the
message.  (No condition on tabs is needed: the indent holds spaces only.) -/
theorem untruncated_diagnostic (pre L post expected : List Byte) (pos : Nat)
    (hs : pre ++ L ++ post ≠ []) (hcr : (13 : Byte) ∉ pre ++ L ++ post)
    (hlim : ∀ a l b, pre ++ L = a ++ l ++ b → (10 : Byte) ∉ l → l.length < MaxScanTokenSize)
    (hpos : pos ≤ (pre ++ L ++ post).length)
    (hpre : pre = [] ∨ pre.getLast? = some 10) (hL : (10 : Byte) ∉ L)
    (hpost : post = [] ∨ post.head? = some 10)
    (h0 : pre.length ≤ pos) (hfirst : pre = [] ∨ pre.length < pos)
    (hle : pos ≤ pre.length + L.length + 1)
    (h40 : pos - pre.length ≤ 40) (h70 : L.length ≤ 70) :
    (Error.mk pos expected).LocateError (pre ++ L ++ post)
      = .ok (bytes "Parsing error in line " ++ decimal (pre.count 10 + 1) ++ bytes ":\n"
          ++ L ++ bytes "\n" ++ List.replicate (pos - pre.length) 32 ++ bytes "^\n"
          ++ (Error.mk pos expected).Error ++ bytes "\n") := by
  have hne : L ≠ [] ∨ post ≠ [] := by
    by_contra hc
    simp only [not_or, not_not] at hc
    rw [hc.1, hc.2] at hs hpos
    simp only [List.append_nil] at hs hpos
    rcases hfirst with h | h
    · exact hs h
    · omega
  have hlen' : (Error.mk pos expected).Pos ≤ (pre ++ L ++ post).length := by
    simp only [Error.Pos]; exact_mod_cast hpos
  have hloc := locate_line_small (Error.mk pos expected) pre L post
    (fun hc => hcr (List.mem_append_left _ hc)) hlim hpre hL hpost hne
    (by simp only [Error.Pos]; exact_mod_cast h0)
    (by
      rcases hfirst with h | h
      · exact Or.inl h
      · right; simp only [Error.Pos]; exact_mod_cast h)
    (by simp only [Error.Pos]; exact_mod_cast hle)
    hlen'
    (by simp only [Error.Pos]; omega)
  have hcast : ((Error.mk pos expected).Pos - (pre.length : Int)).toNat = pos - pre.length := by
    simp only [Error.Pos]; omega
  have h70' : ¬ 70 < L.length := by omega
  rw [LocateError_in_range _ _ hlen', hloc]
  simp only [Except.map, Diagnostic.format, hcast, h70', if_false]

set_option maxRecDepth 100000 in
/-- In `line1\nline2\nline3` the offset 8 lies in the second line `line2`, at
column 2: the diagnostic is the header for line 2, `line2`, two spaces and the
caret, and the message. -/
theorem untruncated_diagnostic_witness :
    bytes "line1\n" ++ bytes "line2" ++ bytes "\nline3" ≠ [] ∧
    (13 : Byte) ∉ bytes "line1\n" ++ bytes "line2" ++ bytes "\nline3" ∧
    (∀ a l b, bytes "line1\n" ++ bytes "line2" = a ++ l ++ b → (10 : Byte) ∉ l →
      l.length < MaxScanTokenSize) ∧
    8 ≤ (bytes "line1\n" ++ bytes "line2" ++ bytes "\nline3").length ∧
    (bytes "line1\n" = [] ∨ (bytes "line1\n").getLast? = some 10) ∧
    (10 : Byte) ∉ bytes "line2" ∧
    (bytes "\nline3" = [] ∨ (bytes "\nline3").head? = some 10) ∧
    (bytes "line1\n").length ≤ 8 ∧
    (bytes "line1\n" = [] ∨ (bytes "line1\n").length < 8) ∧
    8 ≤ (bytes "line1\n").length + (bytes "line2").length + 1 ∧
    8 - (bytes "line1\n").length ≤ 40 ∧ (bytes "line2").length ≤ 70 ∧
    (Error.mk (8 : Nat) (bytes "foo")).LocateError
        (bytes "line1\n" ++ bytes "line2" ++ bytes "\nline3")
      = .ok (bytes "Parsing error in line 2:\nline2\n  ^\noffset 8: expected foo\n") ∧
    (Error.mk (8 : Nat) (bytes "foo")).LocateError
        (bytes "line1\n" ++ bytes "line2" ++ bytes "\nline3")
      = .ok (bytes "Parsing error in line " ++ decimal ((bytes "line1\n").count 10 + 1)
          ++ bytes ":\n" ++ bytes "line2" ++ bytes "\n"
          ++ List.replicate (8 - (bytes "line1\n").length) 32 ++ bytes "^\n"
          ++ (Error.mk (8 : Nat) (bytes "foo")).Error ++ bytes "\n") :=
  ⟨by decide, by decide, limit_of_short _ (by decide), by decide, Or.inr (by decide),
    by decide, Or.inr (by decide), by decide, Or.inr (by decide), by decide, by decide,
    by decide, by decide,
    untruncated_diagnostic (bytes "line1\n") (bytes "line2") (bytes "\nline3") (bytes "foo") 8
      (by decide) (by decide) (limit_of_short _ (by decide)) (by decide)
      (Or.inr (by decide)) (by decide) (Or.inr (by decide)) (by decide) (Or.inr (by decide))
      (by decide) (by decide) (by decide)⟩

/-- C15: on a non-empty document without `\r` whose lines are within the token
limit of the scanner (shorter than 65536 bytes), for every offset
`0 <= pos <= len(s)` the scan loop ends through its `break`, at a line of the
document with `prev <= pos <= off`, where `off = prev + len(line) + 1`; so the
column `pos - prev` is between 0 and `len(line) + 1`. -/
theorem scan_stops_at_break (s expected : List Byte) (pos : Nat) (hs : s ≠ [])
    (hcr : (13 : Byte) ∉ s)
    (hlim : ∀ a l b, s = a ++ l ++ b → (10 : Byte) ∉ l → l.length < MaxScanTokenSize)
    (hpos : pos ≤ s.length) :
    ∃ (v : Vars) (byline : Scanner),
      scanLoopBreak pos (s.length + 1) (NewScanner s) Vars.init = .ok (v, byline, true) ∧
      (Error.mk pos expected).scan s = .ok (v, byline) ∧
      1 ≤ v.lino ∧ v.prev ≤ pos ∧ (pos : Int) ≤ v.off ∧
      v.line.len = (byline.view v.line).length ∧
      v.off = v.prev + (byline.view v.line).length + 1 ∧
      0 ≤ (pos : Int) - v.prev ∧ (pos : Int) - v.prev ≤ (byline.view v.line).length + 1 ∧
      ∃ pre post, s = pre ++ byline.view v.line ++ post ∧ v.prev = pre.length ∧
        (pre = [] ∨ pre.getLast? = some 10) ∧ (10 : Byte) ∉ byline.view v.line ∧
        (post = [] ∨ post.head? = some 10) := by
  obtain ⟨pre, L, post, hd, hpre, hL, hpost, hne, h0, hfirst, hle⟩ := line_at s pos hs hpos
  subst hd
  obtain ⟨v, byline, hscan, hlino, hprev, hoff, hview, hlen, _, _⟩ :=
    scan_finds (Error.mk pos expected) pre L post
      (fun hc => hcr (List.mem_append_left _ hc)) (limit_of_append pre L post hlim)
      hpre hL hpost hne (by simp only [Error.Pos]; exact_mod_cast h0)
      (by
        rcases hfirst with h | h
        · exact Or.inl h
        · right; simp only [Error.Pos]; exact_mod_cast h)
      (by simp only [Error.Pos]; exact_mod_cast hle)
  have hb : ∃ flag, scanLoopBreak pos ((pre ++ L ++ post).length + 1)
      (NewScanner (pre ++ L ++ post)) Vars.init = .ok (v, byline, flag) := by
    have he := scanLoopBreak_erase pos ((pre ++ L ++ post).length + 1)
      (NewScanner (pre ++ L ++ post)) Vars.init
    have hscan1 : scanLoop pos ((pre ++ L ++ post).length + 1) (NewScanner (pre ++ L ++ post))
        Vars.init = .ok (v, byline) := hscan
    rw [hscan1] at he
    cases hq : scanLoopBreak pos ((pre ++ L ++ post).length + 1)
        (NewScanner (pre ++ L ++ post)) Vars.init with
    | error f => rw [hq] at he; simp [Except.map] at he
    | ok q =>
      obtain ⟨q1, q2, q3⟩ := q
      rw [hq] at he
      simp only [Except.map, Except.ok.injEq, Prod.mk.injEq] at he
      exact ⟨q3, by rw [he.1, he.2]⟩
  obtain ⟨flag, hflag⟩ := hb
  have hrange : v.prev ≤ (pos : Int) ∧ (pos : Int) ≤ v.off := by
    rw [hprev, hoff]
    constructor
    · exact_mod_cast h0
    · exact_mod_cast hle
  have hft : flag = true := by
    rcases scanLoopBreak_flag _ _ _ _ _ _ _ hflag with ⟨_, hp⟩ | ⟨_, hiff⟩
    · rw [hp] at hlino
      simp only [Vars.init] at hlino
      omega
    · exact hiff.mpr hrange
  rw [hft] at hflag
  refine ⟨v, byline, hflag, hscan, by rw [hlino]; omega, hrange.1, hrange.2,
    by rw [hlen, hview], by rw [hoff, hprev, hview], by rw [hprev]; omega,
    by rw [hprev, hview]; omega, pre, post, by rw [hview], hprev, hpre, by rw [hview]; exact hL,
    hpost⟩

set_option maxRecDepth 100000 in
/-- In `line1\nline2\nline3` with the offset 8 the loop leaves through its
`break` at the second line: `prev = 6`, `off = 12`, column 2. -/
theorem scan_stops_at_break_witness :
    bytes "line1\nline2\nline3" ≠ [] ∧ (13 : Byte) ∉ bytes "line1\nline2\nline3" ∧
    (∀ a l b, bytes "line1\nline2\nline3" = a ++ l ++ b → (10 : Byte) ∉ l →
      l.length < MaxScanTokenSize) ∧
    8 ≤ (bytes "line1\nline2\nline3").length ∧
    (scanLoopBreak 8 ((bytes "line1\nline2\nline3").length + 1)
        (NewScanner (bytes "line1\nline2\nline3")) Vars.init).map
        (fun q => (q.1.lino, q.1.prev, q.1.off, q.2.1.view q.1.line, q.2.2))
      = .ok (2, 6, 12, bytes "line2", true) ∧
    ∃ (v : Vars) (byline : Scanner),
      scanLoopBreak (8 : Nat) ((bytes "line1\nline2\nline3").length + 1)
        (NewScanner (bytes "line1\nline2\nline3")) Vars.init = .ok (v, byline, true) ∧
      (Error.mk (8 : Nat) (bytes "foo")).scan (bytes "line1\nline2\nline3") = .ok (v, byline) ∧
      1 ≤ v.lino ∧ v.prev ≤ (8 : Nat) ∧ ((8 : Nat) : Int) ≤ v.off ∧
      v.line.len = (byline.view v.line).length ∧
      v.off = v.prev + (byline.view v.line).length + 1 ∧
      0 ≤ ((8 : Nat) : Int) - v.prev ∧
      ((8 : Nat) : Int) - v.prev ≤ (byline.view v.line).length + 1 ∧
      ∃ pre post, bytes "line1\nline2\nline3" = pre ++ byline.view v.line ++ post ∧
        v.prev = pre.length ∧
        (pre = [] ∨ pre.getLast? = some 10) ∧ (10 : Byte) ∉ byline.view v.line ∧
        (post = [] ∨ post.head? = some 10) :=
  ⟨by decide, by decide, limit_of_short _ (by decide), by decide, by decide,
    scan_stops_at_break (bytes "line1\nline2\nline3") (bytes "foo") 8 (by decide) (by decide)
      (limit_of_short _ (by decide)) (by decide)⟩

/-- C16: the document of 65536 bytes `a` is non-empty and has no `\r`, and for
the offset 0 `LocateError` reports line 0, not line 1: the line exceeds the
token limit of the scanner, `Scan` returns `false` at once with an error the
loop never looks at, and `lino` keeps its zero value. -/
theorem line_zero_beyond_token_limit :
    (List.replicate 65536 97 : List Byte).length = 65536 ∧
    (13 : Byte) ∉ (List.replicate 65536 97 : List Byte) ∧
    (Error.mk 0 (bytes "foo")).LocateError (List.replicate 65536 97)
      = .ok (bytes "Parsing error in line 0:\n\n^\noffset 0: expected foo\n") :=
  ⟨List.length_replicate _ _, replicate_a_no_cr _,
    (locateError_tooLong_zero_line 65536 (bytes "foo") (by decide)).trans
      (congrArg Except.ok (by decide))⟩

/-- Where the scanner does not fail the line number follows the formula: on a
non-empty document without `\r` whose lines are all shorter than 65536 bytes,
the token limit of the scanner, for every offset `0 <= pos <= len(s)` the line
number `LocateError` reports is 1 plus the number of `\n` bytes at offsets
below `pos - 1` (1 when `pos = 0`); so it does not decrease when `pos` grows.
(The offsets range over the whole document, so every line is scanned for some
of them.) -/
theorem line_number_formula (s expected : List Byte) (hs : s ≠ [])
    (hcr : (13 : Byte) ∉ s)
    (hlim : ∀ a l b, s = a ++ l ++ b → (10 : Byte) ∉ l → l.length < MaxScanTokenSize) :
    (∀ pos : Nat, pos ≤ s.length →
      ∃ d, (Error.mk pos expected).locate s = .ok d ∧
        (Error.mk pos expected).LocateError s = .ok (d.format (Error.mk pos expected).Error) ∧
        d.lino = 1 + (((s.take (pos - 1)).count 10 : Nat) : Int)) ∧
    (∀ (pos1 pos2 : Nat) (d1 d2 : Diagnostic), pos1 ≤ pos2 → pos2 ≤ s.length →
      (Error.mk pos1 expected).locate s = .ok d1 →
      (Error.mk pos2 expected).locate s = .ok d2 → d1.lino ≤ d2.lino) := by
  constructor
  · intro pos hpos
    obtain ⟨d, hloc, hlino⟩ :=
      locate_lino s expected pos hs hcr (fun a l b h1 h2 _ => hlim a l b h1 h2) hpos
    refine ⟨d, hloc, ?_, hlino⟩
    rw [LocateError_in_range _ _ (by simp only [Error.Pos]; exact_mod_cast hpos), hloc]
    rfl
  · intro pos1 pos2 d1 d2 h12 hpos2 hl1 hl2
    obtain ⟨e1, hloc1, hlino1⟩ :=
      locate_lino s expected pos1 hs hcr (fun a l b h1 h2 _ => hlim a l b h1 h2) (by omega)
    obtain ⟨e2, hloc2, hlino2⟩ :=
      locate_lino s expected pos2 hs hcr (fun a l b h1 h2 _ => hlim a l b h1 h2) hpos2
    rw [hl1] at hloc1
    rw [hl2] at hloc2
    simp only [Except.ok.injEq] at hloc1 hloc2
    rw [hloc1, hloc2, hlino1, hlino2]
    have hsub : (s.take (pos1 - 1)).Sublist (s.take (pos2 - 1)) := by
      have : s.take (pos1 - 1) = (s.take (pos2 - 1)).take (pos1 - 1) := by
        rw [List.take_take, min_eq_left (by omega)]
      rw [this]
      exact List.take_sublist _ _
    have := hsub.count_le (10 : Byte)
    omega

set_option maxRecDepth 100000 in
/-- In `line1\nline2\nline3` the offset 6, the first byte of the second line,
is reported in line 1 (no `\n` lies below offset 5), and the offset 7 in line 2. -/
theorem line_number_formula_witness :
    bytes "line1\nline2\nline3" ≠ [] ∧ (13 : Byte) ∉ bytes "line1\nline2\nline3" ∧
    (∀ a l b, bytes "line1\nline2\nline3" = a ++ l ++ b → (10 : Byte) ∉ l →
      l.length < MaxScanTokenSize) ∧
    ((Error.mk 6 (bytes "foo")).locate (bytes "line1\nline2\nline3")).map (fun d => d.lino)
      = .ok (1 + ((((bytes "line1\nline2\nline3").take (6 - 1)).count 10 : Nat) : Int)) ∧
    ((Error.mk 7 (bytes "foo")).locate (bytes "line1\nline2\nline3")).map (fun d => d.lino)
      = .ok 2 ∧
    ((∀ pos : Nat, pos ≤ (bytes "line1\nline2\nline3").length →
      ∃ d, (Error.mk pos (bytes "foo")).locate (bytes "line1\nline2\nline3") = .ok d ∧
        (Error.mk pos (bytes "foo")).LocateError (bytes "line1\nline2\nline3")
          = .ok (d.format (Error.mk pos (bytes "foo")).Error) ∧
        d.lino = 1 + ((((bytes "line1\nline2\nline3").take (pos - 1)).count 10 : Nat) : Int)) ∧
    (∀ (pos1 pos2 : Nat) (d1 d2 : Diagnostic), pos1 ≤ pos2 →
      pos2 ≤ (bytes "line1\nline2\nline3").length →
      (Error.mk pos1 (bytes "foo")).locate (bytes "line1\nline2\nline3") = .ok d1 →
      (Error.mk pos2 (bytes "foo")).locate (bytes "line1\nline2\nline3") = .ok d2 →
      d1.lino ≤ d2.lino)) :=
  ⟨by decide, by decide, limit_of_short _ (by decide), by decide, by decide,
    line_number_formula (bytes "line1\nline2\nline3") (bytes "foo") (by decide) (by decide)
      (limit_of_short _ (by decide))⟩

end Goparsify
